import Mathlib

/-!
Verification of the PlainDoctor build/export pipeline
(`scripts/build-db.mjs`, `scripts/export-seed.mjs`).

The JavaScript source is shallowly embedded: each JS function is
translated into an executable Lean definition over `String` / `List`
data (SQLite tables become Lean lists of rows; the streaming ingestion
loop becomes a fold over the list of parsed records).  JS string values
are modelled as Lean `String`s; `Map` objects used as seen-sets are
modelled as `List String`.
-/

/-! ### Character helpers

Quote characters are bound to names so that definitions can test
equality against them uniformly. -/

/-- The double-quote character `"` (used by the CSV parser). -/
def dquote : Char := Char.ofNat 34

/-- The single-quote character used by SQL string literals. -/
def squote : Char := Char.ofNat 39

/-! ### Decimal rendering of naturals

Models the JS template interpolation `${suffix}` for a numeric
`suffix`.  Uses explicit fuel so the definition is structurally
recursive and evaluable by `decide`/`rfl`. -/

/-- Auxiliary decimal printer: digits of `n` (most significant first),
empty for `n = 0`; `fuel ≥ n` guarantees completion. -/
def natToStrAux : Nat → Nat → List Char
  | 0, _ => []
  | fuel + 1, n => if n = 0 then [] else natToStrAux fuel (n / 10) ++ [Nat.digitChar (n % 10)]

/-- Decimal rendering of a natural number, as produced by JS `${n}`. -/
def natToStr (n : Nat) : String := if n = 0 then "0" else ⟨natToStrAux n n⟩

/-! ### Unique-slug resolution

Both the per-record ingestion path (build-db.mjs lines 268–276) and the
city-slug dedup path (lines 379–393) run the textually identical loop

    let slug = base; let suffix = 1;
    while (seen.has(slug)) { slug = `${base}-${suffix}`; suffix++; }

It is embedded once, as `resolveUnique`, with fuel `seen.length + 2`:
the loop inspects pairwise-distinct candidates, so it always exits
within that many iterations. -/

/-- The candidate string `base-n`, as built by the JS template
`` `${base}-${suffix}` ``. -/
def suffixed (base : String) (n : Nat) : String := base ++ "-" ++ natToStr n

/-- The `k`-th candidate tried by the collision loop: the bare `base`
first, then `base-1`, `base-2`, …. -/
def cand (base : String) : Nat → String
  | 0 => base
  | n + 1 => suffixed base (n + 1)

/-- One iteration of the JS `while (seen.has(slug))` loop, with fuel. -/
def resolveUniqueAux (base : String) (seen : List String) : Nat → String → Nat → String
  | 0, slug, _ => slug
  | fuel + 1, slug, suffix =>
    if slug ∈ seen then resolveUniqueAux base seen fuel (suffixed base suffix) (suffix + 1)
    else slug

/-- The duplicate-slug resolver shared by the ingestion and city paths:
returns `base` when unseen, else the first `base-n` (n = 1, 2, …) not
in `seen`. -/
def resolveUnique (base : String) (seen : List String) : String :=
  resolveUniqueAux base seen (seen.length + 2) base 1

/-! ### slugify (build-db.mjs lines 16–18)

    function slugify(str) {
      return str.toLowerCase().replace(/[^a-z0-9]+/g, '-').replace(/^-|-$/g, '');
    }

`toLowerCase` is modelled characterwise by `Char.toLower` (the inputs
of interest are ASCII); the first `replace` collapses every maximal run
of characters outside `[a-z0-9]` into a single hyphen; the second
removes the (at most one) leading and trailing hyphen. -/

/-- Membership in the character class `[a-z0-9]` of the regex. -/
def isAlnum (c : Char) : Bool :=
  decide ((97 ≤ c.toNat ∧ c.toNat ≤ 122) ∨ (48 ≤ c.toNat ∧ c.toNat ≤ 57))

/-- Collapse each maximal run of non-`[a-z0-9]` characters to one
hyphen; `inRun` records whether the previous character was part of
such a run. -/
def collapseRuns : Bool → List Char → List Char
  | _, [] => []
  | inRun, c :: rest =>
    if isAlnum c then c :: collapseRuns false rest
    else if inRun then collapseRuns true rest
    else '-' :: collapseRuns true rest

/-- The regex `/^-|-$/g`: remove one leading and one trailing hyphen. -/
def stripEdgeHyphens (l : List Char) : List Char :=
  if l.head? = some '-' then
    if l.tail.getLast? = some '-' then l.tail.dropLast else l.tail
  else
    if l.getLast? = some '-' then l.dropLast else l

/-- The slug helper of build-db.mjs. -/
def slugify (s : String) : String :=
  ⟨stripEdgeHyphens (collapseRuns false (s.data.map Char.toLower))⟩

/-- Shorthand for the no-two-adjacent-hyphens relation. -/
def nonAdjHyph (a b : Char) : Prop := ¬(a = '-' ∧ b = '-')

/-! ### parseCSVLine (build-db.mjs lines 56–78)

A single-pass quote-aware field splitter.  The JS loop walks the line
with an index and mutates `fields` / `current` / `inQuotes`; here the
remaining input is the list argument, `q` is `inQuotes`, and `cur`
holds the current field reversed.  The JS lookahead
`i + 1 < line.length && line[i + 1] === '"'` becomes a match on the
head of the remaining input. -/

/-- The character scanner of `parseCSVLine`. -/
def parseAux : List Char → Bool → List Char → List (List Char)
  | [], _, cur => [cur.reverse]
  | c :: rest, q, cur =>
    if c = dquote then
      if q then
        match rest with
        | c2 :: rest2 =>
          if c2 = dquote then parseAux rest2 true (dquote :: cur)
          else parseAux (c2 :: rest2) false cur
        | [] => parseAux [] false cur
      else parseAux rest true cur
    else if c = ',' ∧ q = false then cur.reverse :: parseAux rest false []
    else parseAux rest q (c :: cur)

/-- The CSV line parser: splits one physical line into fields. -/
def parseCSVLine (s : String) : List String :=
  (parseAux s.data false []).map fun l => ⟨l⟩

/-- CSV escaping of one field body: double every quote character.
This is the inverse direction of the parser's unescaping and is used
to state the round-trip contract. -/
def escapeQuotes : List Char → List Char
  | [] => []
  | c :: rest =>
    if c = dquote then dquote :: dquote :: escapeQuotes rest
    else c :: escapeQuotes rest

/-- Wrap an escaped field body in quotes. -/
def quoteWrap (f : List Char) : List Char := dquote :: (escapeQuotes f ++ [dquote])

/-- Join quoted fields with the comma delimiter. -/
def joinQuoted : List (List Char) → List Char
  | [] => []
  | [f] => quoteWrap f
  | f :: g :: rest => quoteWrap f ++ ',' :: joinQuoted (g :: rest)

/-- Count of delimiters occurring while the scanner is outside quotes,
tracked with exactly the parser's quote-state transitions. -/
def countUnquotedCommas : List Char → Bool → Nat
  | [], _ => 0
  | c :: rest, q =>
    if c = dquote then
      if q then
        match rest with
        | c2 :: rest2 =>
          if c2 = dquote then countUnquotedCommas rest2 true
          else countUnquotedCommas (c2 :: rest2) false
        | [] => countUnquotedCommas [] false
      else countUnquotedCommas rest true
    else if c = ',' ∧ q = false then countUnquotedCommas rest false + 1
    else countUnquotedCommas rest q

/-! ### escapeSQL (export-seed.mjs lines 26–29)

    function escapeSQL(val) {
      if (val === null || val === undefined) return 'NULL';
      return `'${String(val).replace(/'/g, "''")}'`;
    }

A nullable column value is `Option String` (`none` covers both `null`
and `undefined`; non-string SQLite values pass through `String(val)`
before escaping, so the string case is the general one). -/

/-- Double every single-quote character of a value body. -/
def doubleSquotes : List Char → List Char
  | [] => []
  | c :: rest =>
    if c = squote then squote :: squote :: doubleSquotes rest
    else c :: doubleSquotes rest

/-- The SQL value escaper of the seed exporter. -/
def escapeSQL : Option String → String
  | none => "NULL"
  | some v => ⟨squote :: (doubleSquotes v.data ++ [squote])⟩

/-- Reader for a SQL single-quoted literal body: collapses doubled
quotes, succeeds exactly when the literal is terminated by a final
unpaired quote.  Models how a replayed chunk is parsed by SQLite. -/
def sqlLiteralBody : List Char → Option (List Char)
  | [] => none
  | c :: rest =>
    if c = squote then
      match rest with
      | [] => some []
      | c2 :: rest2 =>
        if c2 = squote then (sqlLiteralBody rest2).map (squote :: ·)
        else none
    else (sqlLiteralBody rest).map (c :: ·)

/-- Reader for a full SQL string literal `'...'`. -/
def sqlUnquote (s : String) : Option String :=
  match s.data with
  | c :: rest => if c = squote then (sqlLiteralBody rest).map (fun l => ⟨l⟩) else none
  | [] => none

/-! ### Provider ingestion (build-db.mjs lines 119–300)

A source line, after header-indexed field extraction via
`get(col) = (fields[headerIndices[col]] || '').trim().replace(/"/g,'')`,
yields the record below; the filter chain, normalization and slug
generation of the streaming loop are embedded as `processRecord` and
`ingestStep`.  The batched `INSERT OR IGNORE` commits records in
arrival order regardless of batch boundaries, so the providers table is
modelled as a fold of single idempotent inserts. -/

/-- Taxonomy entry: display name and category (build-db.mjs lines 41–49). -/
structure TaxInfo where
  name : String
  category : String
deriving DecidableEq, Repr

/-- The JS `taxonomy.get(code)` on the loaded taxonomy map. -/
def taxLookup (tax : List (String × TaxInfo)) (code : String) : Option TaxInfo :=
  (tax.find? (fun e => e.1 == code)).map (fun e => e.2)

/-- The fixed set of valid US jurisdiction codes (lines 95–102). -/
def validStates : List String :=
  ["AL", "AK", "AZ", "AR", "CA", "CO", "CT", "DE", "FL", "GA",
   "HI", "ID", "IL", "IN", "IA", "KS", "KY", "LA", "ME", "MD",
   "MA", "MI", "MN", "MS", "MO", "MT", "NE", "NV", "NH", "NJ",
   "NM", "NY", "NC", "ND", "OH", "OK", "OR", "PA", "RI", "SC",
   "SD", "TN", "TX", "UT", "VT", "VA", "WA", "WV", "WI", "WY",
   "DC", "PR", "GU", "VI", "AS", "MP"]

/-- One source record, as seen through the `get` accessor. -/
structure RawRecord where
  entityTypeCode : String
  deactivationDate : String
  reactivationDate : String
  state : String
  city : String
  taxonomyCode : String
  npi : String
  firstName : String
  lastName : String
  credential : String
  gender : String
  postalCode : String
  phone : String
  addressLine : String
  enumerationDate : String
deriving DecidableEq, Repr

/-- One row of the providers table (lines 136–151). -/
structure Provider where
  npi : String
  firstName : String
  lastName : String
  credential : Option String
  gender : Option String
  specialty : String
  specialtyCode : String
  city : String
  state : String
  zip : String
  phone : Option String
  addressLine : Option String
  enumerationDate : Option String
  slug : String
deriving DecidableEq, Repr

/-- JS `get(...) || null`: empty string normalizes to null. -/
def emptyToNone (s : String) : Option String := if s = "" then none else some s

/-- JS `s.slice(0, n)`. -/
def strTake (n : Nat) (s : String) : String := ⟨s.data.take n⟩

/-- JS `s.slice(-n)`: the last `n` characters (all of `s` if shorter). -/
def lastN (n : Nat) (s : String) : String := ⟨s.data.drop (s.data.length - n)⟩

/-- The filter chain and field normalization of the streaming loop
(lines 236–283), before slug assignment.  Returns `none` exactly when
one of the six filters rejects the record. -/
def processRecord (tax : List (String × TaxInfo)) (r : RawRecord) : Option Provider :=
  if r.entityTypeCode ≠ "1" then none
  else if r.deactivationDate ≠ "" ∧ r.reactivationDate = "" then none
  else if r.state ∉ validStates then none
  else if r.city = "" then none
  else
    match taxLookup tax r.taxonomyCode with
    | none => none
    | some info =>
      if r.npi = "" ∨ r.firstName = "" ∨ r.lastName = "" then none
      else some {
        npi := r.npi, firstName := r.firstName, lastName := r.lastName,
        credential := emptyToNone r.credential, gender := emptyToNone r.gender,
        specialty := info.name, specialtyCode := r.taxonomyCode,
        city := r.city, state := r.state, zip := strTake 5 r.postalCode,
        phone := emptyToNone r.phone, addressLine := emptyToNone r.addressLine,
        enumerationDate := emptyToNone r.enumerationDate, slug := "" }

/-- The candidate slug of line 269:
`slugify(firstName + "-" + lastName + "-" + npi.slice(-4))`. -/
def providerBaseSlug (r : RawRecord) : String :=
  slugify (r.firstName ++ "-" ++ r.lastName ++ "-" ++ lastN 4 r.npi)

/-- Running state of the ingestion loop. -/
structure IngestState where
  providers : List Provider
  slugSeen : List String
  skipped : Nat
deriving Repr

/-- `INSERT OR IGNORE` keyed on the `npi` primary key. -/
def insertOrIgnore (tbl : List Provider) (p : Provider) : List Provider :=
  if tbl.any (fun q => q.npi == p.npi) then tbl else tbl ++ [p]

/-- One iteration of the streaming loop: filter, slug resolution,
seen-set update and idempotent insert. -/
def ingestStep (tax : List (String × TaxInfo)) (st : IngestState) (r : RawRecord) : IngestState :=
  match processRecord tax r with
  | none => { st with skipped := st.skipped + 1 }
  | some p =>
    let slug := resolveUnique (providerBaseSlug r) st.slugSeen
    { providers := insertOrIgnore st.providers { p with slug := slug },
      slugSeen := slug :: st.slugSeen,
      skipped := st.skipped }

/-- The whole ingestion run over the parsed data lines. -/
def runIngest (tax : List (String × TaxInfo)) (records : List RawRecord) : IngestState :=
  records.foldl (ingestStep tax) ⟨[], [], 0⟩

/-- The loop invariant behind provider uniqueness. -/
def IngestInv (st : IngestState) : Prop :=
  (st.providers.map (fun p => p.npi)).Nodup ∧
  (st.providers.map (fun p => p.slug)).Nodup ∧
  ∀ p ∈ st.providers, p.slug ∈ st.slugSeen

/-- A demo taxonomy with one individual code. -/
def taxDemo : List (String × TaxInfo) :=
  [("207Q00000X", { name := "Family Medicine", category := "Family Medicine" })]

/-- Demo record: an individual practitioner in a valid state. -/
def recDemo1 : RawRecord :=
  { entityTypeCode := "1", deactivationDate := "", reactivationDate := "",
    state := "CA", city := "Los Angeles", taxonomyCode := "207Q00000X",
    npi := "1111111234", firstName := "John", lastName := "Smith",
    credential := "MD", gender := "M", postalCode := "90001",
    phone := "", addressLine := "", enumerationDate := "" }

/-- Demo record with the same name and the same last four identifier
digits as `recDemo1` but a different identifier. -/
def recDemo2 : RawRecord := { recDemo1 with npi := "2222221234" }

/-- Demo record with a distinct name. -/
def recDemo3 : RawRecord :=
  { recDemo1 with npi := "3333335678", firstName := "Jane", lastName := "Doe" }

/-- Demo record with an organizational entity-type code. -/
def recDemoOrg : RawRecord := { recDemo1 with entityTypeCode := "2" }

/-! ### Descending sort

Models SQLite `ORDER BY <numeric key> DESC` (any permutation sorted by
descending key is a faithful model, since SQLite's tie order is
unspecified). -/

/-- Insert into a descending-sorted list. -/
def insertByDesc {α : Type} (key : α → Nat) (x : α) : List α → List α
  | [] => [x]
  | y :: ys => if key y < key x then x :: y :: ys else y :: insertByDesc key x ys

/-- Insertion sort by descending key. -/
def sortByDesc {α : Type} (key : α → Nat) : List α → List α
  | [] => []
  | x :: xs => insertByDesc key x (sortByDesc key xs)

/-! ### Cities table (build-db.mjs lines 367–393)

`INSERT INTO cities ... GROUP BY city, state HAVING cnt >= 10` followed
by `updateCityBatch`, which assigns slugs with the shared collision
loop against a running seen-set. -/

/-- One row of the cities table. -/
structure CityRow where
  city : String
  state : String
  providerCount : Nat
  slug : String
deriving DecidableEq, Repr

/-- `COUNT(*)` of providers in a given (city, state) group. -/
def cityCount (ps : List Provider) (c s : String) : Nat :=
  ps.countP (fun p => p.city == c && p.state == s)

/-- The `GROUP BY city, state HAVING cnt >= 10 ORDER BY cnt DESC`
insert: one row per distinct qualifying pair, with its count. -/
def buildCities (ps : List Provider) : List CityRow :=
  sortByDesc (fun row => row.providerCount)
    ((((ps.map (fun p => (p.city, p.state))).dedup).filter
      (fun k => 10 ≤ cityCount ps k.1 k.2)).map
      (fun k => { city := k.1, state := k.2, providerCount := cityCount ps k.1 k.2, slug := "" }))

/-- The city slug assignment loop (lines 380–393): for each row in
order, resolve `slugify(city + "-" + state)` against the running
seen-set and record the result. -/
def updateCityBatch (seen : List String) : List CityRow → List CityRow
  | [] => []
  | row :: rest =>
    let slug := resolveUnique (slugify (row.city ++ "-" ++ row.state)) seen
    { row with slug := slug } :: updateCityBatch (slug :: seen) rest

/-! ### Lexicographic string order

Used to state the `resolve_unique` contract exactly as the spec words
it ("the lexicographically first `candidate-{n}` absent"). -/

/-- Lexicographic comparison of character lists by code point. -/
def lexLtChars : List Char → List Char → Bool
  | [], [] => false
  | [], _ :: _ => true
  | _ :: _, [] => false
  | a :: as, b :: bs =>
    if a.toNat < b.toNat then true
    else if b.toNat < a.toNat then false
    else lexLtChars as bs

/-- Lexicographic order on strings. -/
def strLexLt (s t : String) : Prop := lexLtChars s.data t.data = true

instance strLexLt.decidable (s t : String) : Decidable (strLexLt s t) :=
  inferInstanceAs (Decidable (lexLtChars s.data t.data = true))

/-- Demo provider used to exercise the city threshold. -/
def provDemo : Provider :=
  { npi := "1000000001", firstName := "A", lastName := "B", credential := none,
    gender := none, specialty := "Family Medicine", specialtyCode := "207Q00000X",
    city := "Springfield", state := "IL", zip := "62701", phone := none,
    addressLine := none, enumerationDate := none, slug := "a-b-0001" }

/-- Ten providers sharing one (city, state) pair. -/
def psDemo : List Provider := List.replicate 10 provDemo

/-! ### Seed export (export-seed.mjs)

`exportSmallTable` loads the ordered row set and slices it into
fixed-size chunks; `exportLargeTable` pages through the providers table
with a rowid cursor, re-deriving the cursor from the last exported
row's `npi`.  Chunks are modelled as the row lists they contain;
replaying the chunk files in filename order concatenates them. -/

/-- A providers-table row as seen by the exporter: the `npi` key plus
the remaining column values. -/
structure PRow where
  npi : String
  fields : List String
deriving DecidableEq, Repr

/-- Slice a list into chunks of `k` rows (the
`for (i = 0; i < rows.length; i += CHUNK)` loop), with fuel. -/
def chunksOfAux {α : Type} (k : Nat) : Nat → List α → List (List α)
  | 0, _ => []
  | _, [] => []
  | fuel + 1, l => l.take k :: chunksOfAux k fuel (l.drop k)

/-- Chunking of a small table's ordered row set. -/
def chunksOf {α : Type} (k : Nat) (l : List α) : List (List α) := chunksOfAux k l.length l

/-- `exportSmallTable` with `SMALL_CHUNK = 1000`. -/
def exportSmallChunks {α : Type} (rows : List α) : List (List α) := chunksOf 1000 rows

/-- The chunk query
`SELECT * FROM t WHERE rowid > ? ORDER BY rowid LIMIT ?` over a table
stored in rowid order. -/
def selectChunk (tbl : List (Nat × PRow)) (lastRowid k : Nat) : List (Nat × PRow) :=
  (tbl.filter (fun e => lastRowid < e.1)).take k

/-- `SELECT rowid FROM t WHERE npi = ?`. -/
def lookupRowidByNpi (tbl : List (Nat × PRow)) (n : String) : Option Nat :=
  (tbl.find? (fun e => e.2.npi == n)).map (fun e => e.1)

/-- Cursor advancement: the rowid looked up from the last chunk row's
`npi`, with the JS fallback `lastRowid + LARGE_CHUNK`. -/
def nextCursor (tbl : List (Nat × PRow)) (chunk : List (Nat × PRow)) (fallback : Nat) : Nat :=
  match chunk.getLast? with
  | none => fallback
  | some e => (lookupRowidByNpi tbl e.2.npi).getD fallback

/-- The `while (exported < totalCount)` export loop, with fuel. -/
def exportLargeAux (tbl : List (Nat × PRow)) (k : Nat) :
    Nat → Nat → Nat → List (List PRow)
  | 0, _, _ => []
  | fuel + 1, lastRowid, exported =>
    if exported < tbl.length then
      match selectChunk tbl lastRowid k with
      | [] => []
      | c :: cs =>
        (c :: cs).map (fun e => e.2) ::
        exportLargeAux tbl k fuel (nextCursor tbl (c :: cs) (lastRowid + k))
          (exported + (c :: cs).length)
    else []

/-- `exportLargeTable` with `LARGE_CHUNK = 2000`, starting from
cursor 0 with nothing exported. -/
def exportLargeChunks (tbl : List (Nat × PRow)) : List (List PRow) :=
  exportLargeAux tbl 2000 (tbl.length + 1) 0 0

/-- A two-row providers table with increasing rowids and distinct keys. -/
def tblDemo : List (Nat × PRow) :=
  [(1, { npi := "1000000001", fields := ["x"] }), (2, { npi := "1000000002", fields := ["y"] })]

/-! ### Specialty slug dedup (build-db.mjs lines 330–340)

    const dupSlugs = db.prepare(
      `SELECT slug, COUNT(*) as cnt FROM specialties GROUP BY slug HAVING cnt > 1`).all();
    for (const dup of dupSlugs) {
      const specs = db.prepare(
        'SELECT code, name FROM specialties WHERE slug = ? ORDER BY provider_count DESC').all(dup.slug);
      for (let i = 1; i < specs.length; i++) {
        const newSlug = `${dup.slug}-${specs[i].code.slice(0, 6).toLowerCase()}`;
        db.prepare('UPDATE specialties SET slug = ? WHERE code = ?').run(newSlug, specs[i].code);
      }
    }

The inner `SELECT ... WHERE slug = ?` runs against the partially
updated table, so the outer loop is a fold of `dedupStep` over the
dup-slug list computed up front. -/

/-- One row of the specialties table. -/
structure SpecRow where
  code : String
  name : String
  category : Option String
  slug : String
  providerCount : Nat
deriving DecidableEq, Repr

/-- `code.slice(0, 6).toLowerCase()`. -/
def low6 (code : String) : String := ⟨(code.data.take 6).map Char.toLower⟩

/-- `GROUP BY slug HAVING cnt > 1`: slug values held by more than one
row, listed once each. -/
def dupSlugsOf (tbl : List SpecRow) : List String :=
  ((tbl.map (fun r => r.slug)).dedup).filter
    (fun s => 1 < (tbl.map (fun r => r.slug)).count s)

/-- Number of rows currently holding a slug. -/
def slugCount (tbl : List SpecRow) (s : String) : Nat :=
  (tbl.map (fun r => r.slug)).count s

/-- Processing of one colliding slug: select its group ordered by
descending provider_count, keep the first row, and update each later
row (keyed by its unique code) to the suffixed slug. -/
def dedupStep (tbl : List SpecRow) (s : String) : List SpecRow :=
  ((sortByDesc (fun r => r.providerCount) (tbl.filter (fun r => r.slug = s))).drop 1).foldl
    (fun t sp => t.map (fun r =>
      if r.code = sp.code then { r with slug := s ++ "-" ++ low6 sp.code } else r)) tbl

/-- The whole dedup pass over the initially colliding slug values. -/
def specSlugDedup (tbl : List SpecRow) : List SpecRow :=
  (dupSlugsOf tbl).foldl dedupStep tbl

/-- Decidable form of "this row has the strictly largest
provider_count among the rows sharing its slug". -/
def isGroupMaxB (tbl : List SpecRow) (r : SpecRow) : Bool :=
  tbl.all (fun q =>
    decide (q.slug = r.slug → q.code ≠ r.code → q.providerCount < r.providerCount))

/-- The per-row effect of the full dedup pass, with `D` the processed
prefix of the dup-slug list. -/
def specTransform (tbl : List SpecRow) (D : List String) (r : SpecRow) : SpecRow :=
  if r.slug ∈ D ∧ isGroupMaxB tbl r = false
  then { r with slug := r.slug ++ "-" ++ low6 r.code } else r

/-- A two-row specialties table whose rows collide on one slug. -/
def specsDemo : List SpecRow :=
  [{ code := "207Q00000X", name := "A", category := none, slug := "cardiology", providerCount := 5 },
   { code := "208D00000X", name := "B", category := none, slug := "cardiology", providerCount := 3 }]

/-! ### Theorems -/

theorem natToStrAux_eq_digits : ∀ (fuel n : Nat), n ≤ fuel →
    natToStrAux fuel n = ((Nat.digits 10 n).map Nat.digitChar).reverse := by
  intro fuel
  induction fuel with
  | zero =>
    intro n hn
    interval_cases n
    simp [natToStrAux]
  | succ f ih =>
    intro n hn
    by_cases h0 : n = 0
    · subst h0; simp [natToStrAux]
    · have hpos : 0 < n := Nat.pos_of_ne_zero h0
      have hdiv : n / 10 < n := Nat.div_lt_self hpos (by norm_num)
      have : n / 10 ≤ f := by omega
      rw [natToStrAux, if_neg h0, ih _ this, Nat.digits_def' (by norm_num : 1 < 10) hpos]
      simp

theorem digitChar_inj_lt10 : ∀ a < 10, ∀ b < 10, Nat.digitChar a = Nat.digitChar b → a = b := by
  decide

theorem map_digitChar_inj : ∀ (l₁ l₂ : List Nat), (∀ d ∈ l₁, d < 10) → (∀ d ∈ l₂, d < 10) →
    l₁.map Nat.digitChar = l₂.map Nat.digitChar → l₁ = l₂ := by
  intro l₁
  induction l₁ with
  | nil => intro l₂ _ _ h; cases l₂ <;> simp_all
  | cons a t ih =>
    intro l₂ h₁ h₂ h
    cases l₂ with
    | nil => simp at h
    | cons b t₂ =>
      simp only [List.map_cons, List.cons.injEq] at h
      have ha : a = b := digitChar_inj_lt10 a (h₁ a (by simp)) b (h₂ b (by simp)) h.1
      have ht : t = t₂ := ih t₂ (fun d hd => h₁ d (by simp [hd])) (fun d hd => h₂ d (by simp [hd])) h.2
      rw [ha, ht]

theorem natToStr_injective : Function.Injective natToStr := by
  intro a b h
  unfold natToStr at h
  by_cases ha : a = 0 <;> by_cases hb : b = 0
  · omega
  · exfalso
    rw [if_pos ha, if_neg hb, natToStrAux_eq_digits b b le_rfl] at h
    have hdata : ['0'] = ((Nat.digits 10 b).map Nat.digitChar).reverse := congrArg String.data h
    have hne : Nat.digits 10 b ≠ [] := Nat.digits_ne_nil_iff_ne_zero.mpr hb
    have hofd := Nat.ofDigits_digits 10 b
    -- a reversed singleton forces the digit list to be a singleton
    rcases hd : Nat.digits 10 b with _ | ⟨d, rest⟩
    · exact hne hd
    · rw [hd] at hdata
      cases rest with
      | nil =>
        simp at hdata
        have hdlt : d < 10 := Nat.digits_lt_base (by norm_num) (by rw [hd]; simp)
        have : d = 0 := digitChar_inj_lt10 d hdlt 0 (by norm_num) (by simpa using hdata.symm)
        rw [hd, this] at hofd
        simp [Nat.ofDigits] at hofd
        exact hb hofd.symm
      | cons e rest₂ =>
        have : (((d :: e :: rest₂).map Nat.digitChar).reverse).length = 1 := by
          rw [← hdata]; rfl
        simp at this
  · exfalso
    rw [if_neg ha, if_pos hb, natToStrAux_eq_digits a a le_rfl] at h
    have hdata : ((Nat.digits 10 a).map Nat.digitChar).reverse = ['0'] := congrArg String.data h
    have hne : Nat.digits 10 a ≠ [] := Nat.digits_ne_nil_iff_ne_zero.mpr ha
    have hofd := Nat.ofDigits_digits 10 a
    rcases hd : Nat.digits 10 a with _ | ⟨d, rest⟩
    · exact hne hd
    · rw [hd] at hdata
      cases rest with
      | nil =>
        simp at hdata
        have hdlt : d < 10 := Nat.digits_lt_base (by norm_num) (by rw [hd]; simp)
        have : d = 0 := digitChar_inj_lt10 d hdlt 0 (by norm_num) (by simpa using hdata)
        rw [hd, this] at hofd
        simp [Nat.ofDigits] at hofd
        exact ha hofd.symm
      | cons e rest₂ =>
        have : (((d :: e :: rest₂).map Nat.digitChar).reverse).length = 1 := by
          rw [hdata]; rfl
        simp at this
  · rw [if_neg ha, if_neg hb, natToStrAux_eq_digits a a le_rfl,
      natToStrAux_eq_digits b b le_rfl] at h
    have hdata := congrArg String.data h
    simp only at hdata
    have := List.reverse_injective hdata
    have hdig := map_digitChar_inj _ _
      (fun d hd => Nat.digits_lt_base (by norm_num) hd)
      (fun d hd => Nat.digits_lt_base (by norm_num) hd) this
    exact Nat.digits_inj_iff.mp hdig

theorem suffixed_injective (base : String) : ∀ {i j : Nat}, suffixed base i = suffixed base j → i = j := by
  intro i j h
  unfold suffixed at h
  have hdata := congrArg String.data h
  simp only [String.data_append] at hdata
  have := List.append_cancel_left hdata
  exact natToStr_injective (congrArg String.mk this)

theorem base_ne_suffixed (base : String) (n : Nat) : base ≠ suffixed base n := by
  intro h
  have hlen := congrArg String.length h
  rw [suffixed] at hlen
  simp only [String.length_append] at hlen
  have h1 : ("-" : String).length = 1 := rfl
  omega

theorem cand_injective (base : String) : ∀ {i j : Nat}, cand base i = cand base j → i = j := by
  intro i j h
  match i, j with
  | 0, 0 => rfl
  | 0, j + 1 => exact absurd h (base_ne_suffixed base (j + 1))
  | i + 1, 0 => exact absurd h.symm (base_ne_suffixed base (i + 1))
  | i + 1, j + 1 => exact suffixed_injective base h

/-- Pigeonhole: among the first `seen.length + 2` candidates at least
one is absent from `seen`. -/
theorem cand_exists_not_mem (base : String) (seen : List String) :
    ∃ n, n ≤ seen.length + 1 ∧ cand base n ∉ seen := by
  by_contra hall
  push_neg at hall
  have hsub : ((List.range (seen.length + 2)).map (cand base)) ⊆ seen := by
    intro x hx
    rcases List.mem_map.mp hx with ⟨n, hn, rfl⟩
    have := List.mem_range.mp hn
    exact hall n (by omega)
  have hnd : ((List.range (seen.length + 2)).map (cand base)).Nodup := by
    refine List.Nodup.map_on ?_ (List.nodup_range _)
    intro i _ j _ hij
    exact cand_injective base hij
  have := (hnd.subperm hsub).length_le
  simp at this

theorem resolveUniqueAux_run (base : String) (seen : List String) (N : Nat)
    (hN : cand base N ∉ seen) (hleast : ∀ j < N, cand base j ∈ seen) :
    ∀ fuel k, k ≤ N → N - k < fuel →
      resolveUniqueAux base seen fuel (cand base k) (k + 1) = cand base N := by
  intro fuel
  induction fuel with
  | zero => intro k _ h; omega
  | succ f ih =>
    intro k hk hf
    by_cases hmem : cand base k ∈ seen
    · have hkN : k ≠ N := fun e => hN (e ▸ hmem)
      have hklt : k < N := lt_of_le_of_ne hk hkN
      have : resolveUniqueAux base seen (f + 1) (cand base k) (k + 1)
          = resolveUniqueAux base seen f (suffixed base (k + 1)) (k + 2) := by
        simp [resolveUniqueAux, hmem]
      rw [this]
      have : suffixed base (k + 1) = cand base (k + 1) := rfl
      rw [this]
      exact ih (k + 1) (by omega) (by omega)
    · have hkN : k = N := by
        rcases lt_or_eq_of_le hk with h | h
        · exact absurd (hleast k h) hmem
        · exact h
      subst hkN
      simp [resolveUniqueAux, hmem]

/-- Full behaviour of the collision loop: it returns the first
candidate (in the order `base`, `base-1`, `base-2`, …) absent from
`seen`. -/
theorem resolveUnique_spec (base : String) (seen : List String) :
    ∃ n, resolveUnique base seen = cand base n ∧ cand base n ∉ seen ∧
      ∀ j < n, cand base j ∈ seen := by
  have hex : ∃ n, cand base n ∉ seen := by
    rcases cand_exists_not_mem base seen with ⟨n, _, hn⟩
    exact ⟨n, hn⟩
  classical
  refine ⟨Nat.find hex, ?_, Nat.find_spec hex, fun j hj => ?_⟩
  · rcases cand_exists_not_mem base seen with ⟨m, hm, hmnot⟩
    have hNle : Nat.find hex ≤ m := Nat.find_min' hex hmnot
    have h0 : cand base 0 = base := rfl
    have := resolveUniqueAux_run base seen (Nat.find hex) (Nat.find_spec hex)
      (fun j hj => by
        by_contra hc
        exact absurd (Nat.find_min' hex hc) (by omega))
      (seen.length + 2) 0 (by omega) (by omega)
    rw [h0] at this
    exact this.symm ▸ rfl
  · by_contra hc
    exact absurd (Nat.find_min' hex hc) (by omega)

/-- The resolved slug is never an element of the seen-set. -/
theorem resolveUnique_not_mem (base : String) (seen : List String) :
    resolveUnique base seen ∉ seen := by
  rcases resolveUnique_spec base seen with ⟨n, heq, hnot, _⟩
  rw [heq]; exact hnot

/-- When the candidate is fresh the loop body never runs. -/
theorem resolveUnique_of_not_mem (base : String) (seen : List String) (h : base ∉ seen) :
    resolveUnique base seen = base := by
  simp [resolveUnique, resolveUniqueAux, h]

theorem isAlnum_hyphen : isAlnum '-' = false := by decide

theorem collapseRuns_mem : ∀ (l : List Char) (b : Bool) (c : Char),
    c ∈ collapseRuns b l → isAlnum c = true ∨ c = '-' := by
  intro l
  induction l with
  | nil => intro b c h; simp [collapseRuns] at h
  | cons a rest ih =>
    intro b c h
    by_cases ha : isAlnum a
    · rw [collapseRuns, if_pos ha] at h
      rcases List.mem_cons.mp h with rfl | h
      · exact Or.inl ha
      · exact ih false c h
    · rw [collapseRuns, if_neg ha] at h
      cases b with
      | true => exact ih true c (by simpa using h)
      | false =>
        simp only [Bool.false_eq_true, if_false] at h
        rcases List.mem_cons.mp h with rfl | h
        · exact Or.inr rfl
        · exact ih true c h

theorem collapseRuns_head_true : ∀ (l : List Char),
    (collapseRuns true l).head? ≠ some '-' := by
  intro l
  induction l with
  | nil => simp [collapseRuns]
  | cons a rest ih =>
    by_cases ha : isAlnum a
    · rw [collapseRuns, if_pos ha]
      simp only [List.head?_cons]
      intro h
      rw [show a = '-' from Option.some.inj h] at ha
      rw [isAlnum_hyphen] at ha
      exact Bool.false_ne_true ha
    · rw [collapseRuns, if_neg ha]
      simpa using ih

theorem collapseRuns_chain : ∀ (l : List Char) (b : Bool),
    (collapseRuns b l).Chain' nonAdjHyph := by
  intro l
  induction l with
  | nil => intro b; simp [collapseRuns]
  | cons a rest ih =>
    intro b
    by_cases ha : isAlnum a
    · rw [collapseRuns, if_pos ha]
      rw [List.chain'_cons']
      refine ⟨?_, ih false⟩
      intro x _
      intro hx
      rw [hx.1] at ha
      rw [isAlnum_hyphen] at ha
      exact Bool.false_ne_true ha
    · rw [collapseRuns, if_neg ha]
      cases b with
      | true => simpa using ih true
      | false =>
        simp only [Bool.false_eq_true, if_false]
        rw [List.chain'_cons']
        refine ⟨?_, ih true⟩
        intro x hx hcontra
        exact collapseRuns_head_true rest (hcontra.2 ▸ hx)

theorem dropLast_head? (l : List Char) :
    l.dropLast.head? = none ∨ l.dropLast.head? = l.head? := by
  match l with
  | [] => exact Or.inl rfl
  | [x] => exact Or.inl rfl
  | x :: y :: t => exact Or.inr rfl

theorem stripEdgeHyphens_subset (l : List Char) : stripEdgeHyphens l ⊆ l := by
  unfold stripEdgeHyphens
  intro c hc
  split at hc
  · split at hc
    · exact (List.tail_subset l) ((List.dropLast_subset _) hc)
    · exact (List.tail_subset l) hc
  · split at hc
    · exact (List.dropLast_subset _) hc
    · exact hc

theorem stripEdgeHyphens_chain (l : List Char) (h : l.Chain' nonAdjHyph) :
    (stripEdgeHyphens l).Chain' nonAdjHyph := by
  unfold stripEdgeHyphens
  have htail : l.tail.Chain' nonAdjHyph := List.Chain'.tail h
  split
  · split
    · exact List.Chain'.init htail
    · exact htail
  · split
    · exact List.Chain'.init h
    · exact h

theorem chain'_getLast_dropLast : ∀ (l : List Char), l.Chain' nonAdjHyph →
    ∀ b, l.getLast? = some b → ∀ a, l.dropLast.getLast? = some a → nonAdjHyph a b := by
  intro l
  induction l with
  | nil => intro _ b hb; simp at hb
  | cons x xs ih =>
    cases xs with
    | nil => intro _ b _ a ha; simp at ha
    | cons y t =>
      intro h b hb a ha
      cases t with
      | nil =>
        simp at hb ha
        subst hb
        subst ha
        rw [List.chain'_cons] at h
        exact h.1
      | cons z t' =>
        have hxs : (y :: z :: t').Chain' nonAdjHyph := List.Chain'.tail h
        have hb' : (y :: z :: t').getLast? = some b := by
          rwa [List.getLast?_cons_cons] at hb
        have ha' : (y :: z :: t').dropLast.getLast? = some a := by
          have hshape : (x :: y :: z :: t').dropLast = x :: y :: (z :: t').dropLast := rfl
          rw [hshape, List.getLast?_cons_cons] at ha
          exact ha
        exact ih hxs b hb' a ha'

theorem stripEdgeHyphens_head (l : List Char) (h : l.Chain' nonAdjHyph) :
    (stripEdgeHyphens l).head? ≠ some '-' := by
  unfold stripEdgeHyphens
  split
  case isTrue hh =>
    have htailhead : l.tail.head? ≠ some '-' := by
      cases l with
      | nil => simp at hh
      | cons c t =>
        have hc : c = '-' := by simpa using hh
        subst hc
        rw [List.chain'_cons'] at h
        intro hcontra
        exact h.1 '-' (by simpa using hcontra) ⟨rfl, rfl⟩
    split
    · rcases dropLast_head? l.tail with h' | h'
      · simp [h']
      · rw [h']; exact htailhead
    · exact htailhead
  case isFalse hh =>
    split
    · rcases dropLast_head? l with h' | h'
      · simp [h']
      · rw [h']; exact hh
    · exact hh

theorem stripEdgeHyphens_getLast (l : List Char) (h : l.Chain' nonAdjHyph) :
    (stripEdgeHyphens l).getLast? ≠ some '-' := by
  unfold stripEdgeHyphens
  have htail : l.tail.Chain' nonAdjHyph := List.Chain'.tail h
  split
  · split
    case isTrue hlast =>
      intro hcontra
      exact chain'_getLast_dropLast l.tail htail '-' hlast '-' hcontra ⟨rfl, rfl⟩
    case isFalse hlast => exact hlast
  · split
    case isTrue hlast =>
      intro hcontra
      exact chain'_getLast_dropLast l h '-' hlast '-' hcontra ⟨rfl, rfl⟩
    case isFalse hlast => exact hlast

theorem toLower_fixed (c : Char) (h : isAlnum c = true ∨ c = '-') : Char.toLower c = c := by
  have hdash : ('-' : Char).toNat = 45 := rfl
  simp only [Char.toLower]
  rw [if_neg]
  rcases h with h | rfl
  · simp only [isAlnum, decide_eq_true_eq] at h
    omega
  · omega

theorem collapseRuns_fixed : ∀ (l : List Char) (b : Bool),
    (∀ c ∈ l, isAlnum c = true ∨ c = '-') → l.Chain' nonAdjHyph →
    (b = true → l.head? ≠ some '-') → collapseRuns b l = l := by
  intro l
  induction l with
  | nil => intro b _ _ _; rfl
  | cons c rest ih =>
    intro b hmem hchain hside
    rcases hmem c (by simp) with hc | hc
    · rw [collapseRuns, if_pos hc]
      rw [ih false (fun x hx => hmem x (by simp [hx])) (List.Chain'.tail hchain) (by simp)]
    · subst hc
      have hcneg : ¬(isAlnum '-' = true) := by rw [isAlnum_hyphen]; simp
      have hb : b = false := by
        cases b with
        | false => rfl
        | true => exact absurd rfl (hside rfl)
      subst hb
      rw [collapseRuns, if_neg hcneg]
      simp only [Bool.false_eq_true, if_false]
      congr 1
      refine ih true (fun x hx => hmem x (by simp [hx])) (List.Chain'.tail hchain) ?_
      intro _ hcontra
      rw [List.chain'_cons'] at hchain
      exact hchain.1 '-' (by simpa using hcontra) ⟨rfl, rfl⟩

theorem stripEdgeHyphens_fixed (l : List Char) (h1 : l.head? ≠ some '-')
    (h2 : l.getLast? ≠ some '-') : stripEdgeHyphens l = l := by
  unfold stripEdgeHyphens
  rw [if_neg h1, if_neg h2]

theorem map_toLower_fixed (l : List Char) (h : ∀ c ∈ l, isAlnum c = true ∨ c = '-') :
    l.map Char.toLower = l := by
  induction l with
  | nil => rfl
  | cons c rest ih =>
    simp only [List.map_cons]
    rw [toLower_fixed c (h c (by simp)), ih (fun x hx => h x (by simp [hx]))]

/-- C10. For every input string, `slugify` emits only lowercase ASCII
letters, digits and hyphens, with no two adjacent hyphens, no leading
or trailing hyphen, and `slugify` is idempotent. -/
theorem slugify_wellformed_idempotent (s : String) :
    (∀ c ∈ (slugify s).data, isAlnum c = true ∨ c = '-') ∧
    List.Chain' nonAdjHyph (slugify s).data ∧
    (slugify s).data.head? ≠ some '-' ∧
    (slugify s).data.getLast? ≠ some '-' ∧
    slugify (slugify s) = slugify s := by
  have hdata : (slugify s).data = stripEdgeHyphens (collapseRuns false (s.data.map Char.toLower)) := rfl
  have hchainL : (collapseRuns false (s.data.map Char.toLower)).Chain' nonAdjHyph :=
    collapseRuns_chain _ false
  have hmem : ∀ c ∈ (slugify s).data, isAlnum c = true ∨ c = '-' := by
    rw [hdata]
    exact fun c hc => collapseRuns_mem _ false c (stripEdgeHyphens_subset _ hc)
  have hchain : List.Chain' nonAdjHyph (slugify s).data := by
    rw [hdata]; exact stripEdgeHyphens_chain _ hchainL
  have hhead : (slugify s).data.head? ≠ some '-' := by
    rw [hdata]; exact stripEdgeHyphens_head _ hchainL
  have hlast : (slugify s).data.getLast? ≠ some '-' := by
    rw [hdata]; exact stripEdgeHyphens_getLast _ hchainL
  refine ⟨hmem, hchain, hhead, hlast, ?_⟩
  show String.mk (stripEdgeHyphens (collapseRuns false ((slugify s).data.map Char.toLower))) = slugify s
  rw [map_toLower_fixed _ hmem,
    collapseRuns_fixed _ false hmem hchain (by simp),
    stripEdgeHyphens_fixed _ hhead hlast]

theorem comma_ne_dquote : (',' : Char) ≠ dquote := by decide

theorem parseAux_cons_other (c : Char) (rest cur : List Char) (q : Bool)
    (h : c ≠ dquote) (h2 : ¬(c = ',' ∧ q = false)) :
    parseAux (c :: rest) q cur = parseAux rest q (c :: cur) := by
  rw [parseAux.eq_def]
  simp [h, h2]

theorem parseAux_cons_comma (rest cur : List Char) :
    parseAux (',' :: rest) false cur = cur.reverse :: parseAux rest false [] := by
  rw [parseAux.eq_def]
  simp [comma_ne_dquote]

theorem parseAux_open (rest cur : List Char) :
    parseAux (dquote :: rest) false cur = parseAux rest true cur := by
  rw [parseAux.eq_def]
  simp

theorem parseAux_dd (rest2 cur : List Char) :
    parseAux (dquote :: dquote :: rest2) true cur = parseAux rest2 true (dquote :: cur) := by
  rw [parseAux.eq_def]
  simp

theorem parseAux_close (rest cur : List Char) (h : rest.head? ≠ some dquote) :
    parseAux (dquote :: rest) true cur = parseAux rest false cur := by
  rw [parseAux.eq_def]
  cases rest with
  | nil => simp
  | cons c2 rest2 =>
    have hc2 : c2 ≠ dquote := fun e => h (by simp [e])
    simp [hc2]

theorem parseAux_quoted (f : List Char) : ∀ (cur rest : List Char),
    rest.head? ≠ some dquote →
    parseAux (escapeQuotes f ++ dquote :: rest) true cur
      = parseAux rest false (f.reverse ++ cur) := by
  induction f with
  | nil =>
    intro cur rest hrest
    simp only [escapeQuotes, List.nil_append, List.reverse_nil]
    exact parseAux_close rest cur hrest
  | cons c fs ih =>
    intro cur rest hrest
    by_cases hc : c = dquote
    · subst hc
      rw [show escapeQuotes (dquote :: fs) ++ dquote :: rest
          = dquote :: dquote :: (escapeQuotes fs ++ dquote :: rest) by
        simp [escapeQuotes]]
      rw [parseAux_dd, ih (dquote :: cur) rest hrest]
      simp
    · rw [show escapeQuotes (c :: fs) ++ dquote :: rest
          = c :: (escapeQuotes fs ++ dquote :: rest) by simp [escapeQuotes, hc]]
      rw [parseAux_cons_other c _ cur true hc (by simp), ih (c :: cur) rest hrest]
      simp

theorem count_cons_other (c : Char) (rest : List Char) (q : Bool)
    (h : c ≠ dquote) (h2 : ¬(c = ',' ∧ q = false)) :
    countUnquotedCommas (c :: rest) q = countUnquotedCommas rest q := by
  rw [countUnquotedCommas.eq_def]
  simp [h, h2]

theorem count_cons_comma (rest : List Char) :
    countUnquotedCommas (',' :: rest) false = countUnquotedCommas rest false + 1 := by
  rw [countUnquotedCommas.eq_def]
  simp [comma_ne_dquote]

theorem count_open (rest : List Char) :
    countUnquotedCommas (dquote :: rest) false = countUnquotedCommas rest true := by
  rw [countUnquotedCommas.eq_def]
  simp

theorem count_dd (rest2 : List Char) :
    countUnquotedCommas (dquote :: dquote :: rest2) true = countUnquotedCommas rest2 true := by
  rw [countUnquotedCommas.eq_def]
  simp

theorem count_close (rest : List Char) (h : rest.head? ≠ some dquote) :
    countUnquotedCommas (dquote :: rest) true = countUnquotedCommas rest false := by
  rw [countUnquotedCommas.eq_def]
  cases rest with
  | nil => simp
  | cons c2 rest2 =>
    have hc2 : c2 ≠ dquote := fun e => h (by simp [e])
    simp [hc2]

theorem parseAux_joinQuoted : ∀ (fields : List (List Char)), fields ≠ [] →
    parseAux (joinQuoted fields) false [] = fields := by
  intro fields
  induction fields with
  | nil => intro h; exact absurd rfl h
  | cons f gs ih =>
    intro _
    cases gs with
    | nil =>
      rw [show joinQuoted [f] = dquote :: (escapeQuotes f ++ dquote :: []) from rfl]
      rw [parseAux_open, parseAux_quoted f [] [] (by simp)]
      simp [parseAux]
    | cons g rest =>
      rw [show joinQuoted (f :: g :: rest)
          = dquote :: (escapeQuotes f ++ dquote :: (',' :: joinQuoted (g :: rest))) by
        simp [joinQuoted, quoteWrap]]
      rw [parseAux_open, parseAux_quoted f [] _ (by simp [comma_ne_dquote]),
        parseAux_cons_comma, ih (by simp)]
      simp

theorem parseAux_length : ∀ (n : Nat) (l : List Char), l.length ≤ n →
    ∀ (q : Bool) (cur : List Char),
    (parseAux l q cur).length = countUnquotedCommas l q + 1 := by
  intro n
  induction n with
  | zero =>
    intro l hl q cur
    have hnil : l = [] := List.eq_nil_of_length_eq_zero (by omega)
    subst hnil
    simp [parseAux, countUnquotedCommas]
  | succ m ih =>
    intro l hl q cur
    cases l with
    | nil => simp [parseAux, countUnquotedCommas]
    | cons c rest =>
      simp only [List.length_cons] at hl
      by_cases hc : c = dquote
      · subst hc
        cases q with
        | false =>
          rw [parseAux_open, count_open]
          exact ih rest (by omega) true cur
        | true =>
          cases rest with
          | nil =>
            rw [parseAux_close [] cur (by simp), count_close [] (by simp)]
            simp [parseAux, countUnquotedCommas]
          | cons c2 rest2 =>
            by_cases hc2 : c2 = dquote
            · subst hc2
              rw [parseAux_dd, count_dd]
              exact ih rest2 (by simp at hl; omega) true (dquote :: cur)
            · rw [parseAux_close (c2 :: rest2) cur (by simp [hc2]),
                count_close (c2 :: rest2) (by simp [hc2])]
              exact ih (c2 :: rest2) (by simpa using hl) false cur
      · by_cases hcomma : c = ',' ∧ q = false
        · rcases hcomma with ⟨rfl, rfl⟩
          rw [parseAux_cons_comma, count_cons_comma]
          have := ih rest (by omega) false []
          simp only [List.length_cons]
          omega
        · rw [parseAux_cons_other c rest cur q hc hcomma,
            count_cons_other c rest q hc hcomma]
          exact ih rest (by omega) q (c :: cur)

/-- C5. The single-pass splitter `parseCSVLine` unescapes a doubled
quote inside a quoted field to one literal quote and does not split on
a delimiter inside a quoted span — stated as the round-trip on
quote-wrapped, quote-doubled fields — and an unquoted delimiter always
splits: the output has one more field than the number of delimiters
scanned outside quotes. -/
theorem parseCSVLine_contract :
    (∀ fields : List String, fields ≠ [] →
      parseCSVLine ⟨joinQuoted (fields.map String.data)⟩ = fields) ∧
    (∀ s : String, (parseCSVLine s).length = countUnquotedCommas s.data false + 1) := by
  constructor
  · intro fields hne
    rw [parseCSVLine]
    have hdata : (String.mk (joinQuoted (fields.map String.data))).data
        = joinQuoted (fields.map String.data) := rfl
    rw [hdata, parseAux_joinQuoted _ (by simpa using hne), List.map_map]
    have hid : ((fun l => (⟨l⟩ : String)) ∘ String.data) = id := funext fun x => rfl
    rw [hid, List.map_id]
  · intro s
    rw [parseCSVLine, List.length_map]
    exact parseAux_length s.data.length s.data le_rfl false []

/-- Witness: the round-trip half of C5 evaluated on a concrete line
whose second field contains an embedded delimiter. -/
theorem parseCSVLine_contract_witness :
    (["ab", "c,d"] : List String) ≠ [] ∧
    parseCSVLine ⟨joinQuoted ((["ab", "c,d"] : List String).map String.data)⟩ = ["ab", "c,d"] :=
  ⟨by decide, parseCSVLine_contract.1 ["ab", "c,d"] (by decide)⟩

theorem sqlLiteralBody_doubleSquotes : ∀ (l : List Char),
    sqlLiteralBody (doubleSquotes l ++ [squote]) = some l := by
  intro l
  induction l with
  | nil => simp [doubleSquotes, sqlLiteralBody]
  | cons c rest ih =>
    by_cases hc : c = squote
    · subst hc
      rw [show doubleSquotes (squote :: rest) ++ [squote]
          = squote :: squote :: (doubleSquotes rest ++ [squote]) by simp [doubleSquotes]]
      rw [sqlLiteralBody.eq_def]
      simp [ih]
    · rw [show doubleSquotes (c :: rest) ++ [squote]
          = c :: (doubleSquotes rest ++ [squote]) by simp [doubleSquotes, hc]]
      rw [sqlLiteralBody.eq_def]
      simp [hc, ih]

/-- C9. The exporter's value escaping: `null`/`undefined` becomes the
unquoted literal `NULL` and nothing else does; every other value is
emitted as a quoted string with embedded quotes doubled, and reading
the emitted literal back yields exactly the original value. -/
theorem escapeSQL_contract :
    escapeSQL none = "NULL" ∧
    (∀ v : String, escapeSQL (some v) ≠ "NULL" ∧
      sqlUnquote (escapeSQL (some v)) = some v) := by
  refine ⟨rfl, fun v => ⟨?_, ?_⟩⟩
  · intro h
    have hdata := congrArg String.data h
    have : (escapeSQL (some v)).data = squote :: (doubleSquotes v.data ++ [squote]) := rfl
    rw [this] at hdata
    have hhead := congrArg List.head? hdata
    simp at hhead
    exact absurd hhead (by decide)
  · rw [sqlUnquote]
    have : (escapeSQL (some v)).data = squote :: (doubleSquotes v.data ++ [squote]) := rfl
    rw [this]
    simp only [if_pos rfl]
    rw [sqlLiteralBody_doubleSquotes]
    rfl

theorem ingestStep_inv (tax : List (String × TaxInfo)) (st : IngestState) (r : RawRecord)
    (h : IngestInv st) : IngestInv (ingestStep tax st r) := by
  obtain ⟨hnpi, hslug, hmem⟩ := h
  rw [ingestStep]
  cases hpr : processRecord tax r with
  | none => exact ⟨hnpi, hslug, hmem⟩
  | some p =>
    simp only
    set s := resolveUnique (providerBaseSlug r) st.slugSeen with hs
    have hsnew : s ∉ st.slugSeen := resolveUnique_not_mem _ _
    rw [insertOrIgnore]
    split
    case isTrue =>
      exact ⟨hnpi, hslug, fun q hq => List.mem_cons_of_mem s (hmem q hq)⟩
    case isFalse hany =>
      have hnpinotin : ∀ q ∈ st.providers, q.npi ≠ ({ p with slug := s } : Provider).npi := by
        intro q hq
        intro he
        exact hany (List.any_eq_true.mpr ⟨q, hq, by simp [he]⟩)
      refine ⟨?_, ?_, ?_⟩
      · rw [List.map_append]
        rw [List.nodup_append]
        refine ⟨hnpi, List.nodup_singleton _, ?_⟩
        intro x hx hy
        simp only [List.map_cons, List.map_nil, List.mem_singleton] at hy
        rcases List.mem_map.mp hx with ⟨q, hq, rfl⟩
        exact hnpinotin q hq (hy)
      · rw [List.map_append]
        rw [List.nodup_append]
        refine ⟨hslug, List.nodup_singleton _, ?_⟩
        intro x hx hy
        simp only [List.map_cons, List.map_nil, List.mem_singleton] at hy
        rcases List.mem_map.mp hx with ⟨q, hq, rfl⟩
        exact hsnew (hy ▸ hmem q hq)
      · intro q hq
        rcases List.mem_append.mp hq with hq | hq
        · exact List.mem_cons_of_mem s (hmem q hq)
        · simp only [List.mem_singleton] at hq
          subst hq
          simp

theorem runIngest_inv (tax : List (String × TaxInfo)) (records : List RawRecord) :
    IngestInv (runIngest tax records) := by
  rw [runIngest]
  have : ∀ (rs : List RawRecord) (st : IngestState), IngestInv st →
      IngestInv (rs.foldl (ingestStep tax) st) := by
    intro rs
    induction rs with
    | nil => intro st h; exact h
    | cons r rest ih =>
      intro st h
      exact ih _ (ingestStep_inv tax st r h)
  exact this records ⟨[], [], 0⟩ ⟨List.nodup_nil, List.nodup_nil, by simp⟩

/-- C1. After one ingestion run the provider rows have pairwise
distinct identifiers (the idempotent insert drops duplicate `npi`s)
and pairwise distinct slugs (each emitted slug is checked against and
recorded in the run's seen-set). -/
theorem providers_npi_slug_pairwise_distinct (tax : List (String × TaxInfo))
    (records : List RawRecord) :
    ((runIngest tax records).providers.map (fun p => p.npi)).Nodup ∧
    ((runIngest tax records).providers.map (fun p => p.slug)).Nodup :=
  ⟨(runIngest_inv tax records).1, (runIngest_inv tax records).2.1⟩

/-- C4. A record whose entity-type column is not the literal `"1"` is
rejected by the first filter: the providers table and the seen-set are
untouched, the skip counter is incremented, and (the step being a total
function) the run continues. -/
theorem entity_type_filter (tax : List (String × TaxInfo)) (st : IngestState) (r : RawRecord)
    (h : r.entityTypeCode ≠ "1") :
    (ingestStep tax st r).providers = st.providers ∧
    (ingestStep tax st r).slugSeen = st.slugSeen ∧
    (ingestStep tax st r).skipped = st.skipped + 1 := by
  have hpr : processRecord tax r = none := by
    rw [processRecord, if_pos h]
  rw [ingestStep, hpr]
  exact ⟨rfl, rfl, rfl⟩

/-- Witness for C4: an otherwise well-formed organizational record is
skipped without touching the provider set. -/
theorem entity_type_filter_witness :
    recDemoOrg.entityTypeCode ≠ "1" ∧
    ((ingestStep taxDemo ⟨[], [], 0⟩ recDemoOrg).providers = [] ∧
     (ingestStep taxDemo ⟨[], [], 0⟩ recDemoOrg).slugSeen = [] ∧
     (ingestStep taxDemo ⟨[], [], 0⟩ recDemoOrg).skipped = 0 + 1) :=
  ⟨by decide, entity_type_filter taxDemo ⟨[], [], 0⟩ recDemoOrg (by decide)⟩

/-- C6. For a record passing all filters the emitted slug is
`resolveUnique` of `slugify(firstName-lastName-last4(npi))` against the
run's seen-set: the candidate itself when fresh, else the first
`candidate-n` (n = 1, 2, … in increasing numeric order) not yet seen.
In the concrete 3-row extract where rows 1 and 2 share names and
identifier suffix, row 1 keeps the unsuffixed slug, row 2 gets `-1`,
and the identifiers are unchanged and distinct. -/
theorem slug_collision_suffix :
    (∀ (tax : List (String × TaxInfo)) (st : IngestState) (r : RawRecord),
      (processRecord tax r).isSome = true →
      (ingestStep tax st r).slugSeen
        = resolveUnique (providerBaseSlug r) st.slugSeen :: st.slugSeen ∧
      (providerBaseSlug r ∉ st.slugSeen →
        resolveUnique (providerBaseSlug r) st.slugSeen = providerBaseSlug r) ∧
      (providerBaseSlug r ∈ st.slugSeen →
        ∃ n, 1 ≤ n ∧
          resolveUnique (providerBaseSlug r) st.slugSeen = suffixed (providerBaseSlug r) n ∧
          suffixed (providerBaseSlug r) n ∉ st.slugSeen ∧
          ∀ m, 1 ≤ m → m < n → suffixed (providerBaseSlug r) m ∈ st.slugSeen)) ∧
    ((runIngest taxDemo [recDemo1, recDemo2, recDemo3]).providers.map (fun p => p.slug)
        = ["john-smith-1234", "john-smith-1234-1", "jane-doe-5678"] ∧
     (runIngest taxDemo [recDemo1, recDemo2, recDemo3]).providers.map (fun p => p.npi)
        = ["1111111234", "2222221234", "3333335678"]) := by
  constructor
  · intro tax st r hsome
    rcases Option.isSome_iff_exists.mp hsome with ⟨p, hp⟩
    refine ⟨by rw [ingestStep, hp], ?_, ?_⟩
    · exact resolveUnique_of_not_mem _ _
    · intro hmem
      rcases resolveUnique_spec (providerBaseSlug r) st.slugSeen with ⟨n, heq, hnot, hleast⟩
      cases n with
      | zero => exact absurd hmem hnot
      | succ k =>
        refine ⟨k + 1, by omega, heq, hnot, ?_⟩
        intro m h1 hm
        have := hleast m hm
        cases m with
        | zero => omega
        | succ j => exact this
  · constructor
    · decide
    · decide

/-- Witness for C6: the first conjunct applied to the demo record with
an empty seen-set. -/
theorem slug_collision_suffix_witness :
    (processRecord taxDemo recDemo1).isSome = true ∧
    ((ingestStep taxDemo ⟨[], [], 0⟩ recDemo1).slugSeen
        = resolveUnique (providerBaseSlug recDemo1) [] :: [] ∧
      (providerBaseSlug recDemo1 ∉ ([] : List String) →
        resolveUnique (providerBaseSlug recDemo1) [] = providerBaseSlug recDemo1) ∧
      (providerBaseSlug recDemo1 ∈ ([] : List String) →
        ∃ n, 1 ≤ n ∧
          resolveUnique (providerBaseSlug recDemo1) [] = suffixed (providerBaseSlug recDemo1) n ∧
          suffixed (providerBaseSlug recDemo1) n ∉ ([] : List String) ∧
          ∀ m, 1 ≤ m → m < n → suffixed (providerBaseSlug recDemo1) m ∈ ([] : List String))) :=
  ⟨by decide, slug_collision_suffix.1 taxDemo ⟨[], [], 0⟩ recDemo1 (by decide)⟩

theorem insertByDesc_perm {α : Type} (key : α → Nat) (x : α) :
    ∀ (l : List α), (insertByDesc key x l).Perm (x :: l) := by
  intro l
  induction l with
  | nil => simp [insertByDesc]
  | cons y ys ih =>
    rw [insertByDesc]
    split
    · exact List.Perm.refl _
    · exact (List.Perm.cons y ih).trans (List.Perm.swap x y ys)

theorem sortByDesc_perm {α : Type} (key : α → Nat) :
    ∀ (l : List α), (sortByDesc key l).Perm l := by
  intro l
  induction l with
  | nil => simp [sortByDesc]
  | cons x xs ih =>
    rw [sortByDesc]
    exact (insertByDesc_perm key x (sortByDesc key xs)).trans (List.Perm.cons x ih)

theorem insertByDesc_sorted {α : Type} (key : α → Nat) (x : α) :
    ∀ (l : List α), l.Pairwise (fun a b => key b ≤ key a) →
    (insertByDesc key x l).Pairwise (fun a b => key b ≤ key a) := by
  intro l
  induction l with
  | nil => intro _; simp [insertByDesc]
  | cons y ys ih =>
    intro hs
    rw [List.pairwise_cons] at hs
    rw [insertByDesc]
    split
    case isTrue hlt =>
      rw [List.pairwise_cons]
      refine ⟨?_, List.pairwise_cons.mpr hs⟩
      intro z hz
      rcases List.mem_cons.mp hz with rfl | hz
      · omega
      · have := hs.1 z hz
        omega
    case isFalse hge =>
      rw [List.pairwise_cons]
      refine ⟨?_, ih hs.2⟩
      intro z hz
      have hz' := (insertByDesc_perm key x ys).mem_iff.mp hz
      rcases List.mem_cons.mp hz' with rfl | hz'
      · omega
      · exact hs.1 z hz'

theorem sortByDesc_sorted {α : Type} (key : α → Nat) :
    ∀ (l : List α), (sortByDesc key l).Pairwise (fun a b => key b ≤ key a) := by
  intro l
  induction l with
  | nil => simp [sortByDesc]
  | cons x xs ih =>
    rw [sortByDesc]
    exact insertByDesc_sorted key x _ ih

/-- Counterexample to C8 as stated: with seen-set `{a, a-1}` the
resolver returns `a-2` (the numerically first free suffix), yet
`a-10` is also a free candidate of the form `candidate-{n}` and is
lexicographically smaller than `a-2`, so the returned value is not the
lexicographically first absent candidate. -/
theorem resolve_unique_not_lex_first :
    resolveUnique "a" ["a", "a-1"] = suffixed "a" 2 ∧
    suffixed "a" 10 ∉ (["a", "a-1"] : List String) ∧
    strLexLt (suffixed "a" 10) (suffixed "a" 2) :=
  ⟨by decide, by decide, by decide⟩

/-- C8 (amended). `resolve_unique(candidate, seen_set)` returns the
candidate itself when absent from the seen-set, and otherwise
`candidate-{n}` for the numerically smallest n ≥ 1 whose suffixed form
is absent; both the per-record ingestion path and the city-slug dedup
path call exactly this resolver. -/
theorem resolve_unique_contract :
    (∀ (base : String) (seen : List String), base ∉ seen →
      resolveUnique base seen = base) ∧
    (∀ (base : String) (seen : List String), base ∈ seen →
      ∃ n, 1 ≤ n ∧ resolveUnique base seen = suffixed base n ∧
        suffixed base n ∉ seen ∧ ∀ m, 1 ≤ m → m < n → suffixed base m ∈ seen) ∧
    (∀ (tax : List (String × TaxInfo)) (st : IngestState) (r : RawRecord),
      (processRecord tax r).isSome = true →
      (ingestStep tax st r).slugSeen
        = resolveUnique (providerBaseSlug r) st.slugSeen :: st.slugSeen) ∧
    (∀ (seen : List String) (row : CityRow) (rest : List CityRow),
      updateCityBatch seen (row :: rest)
        = { row with slug := resolveUnique (slugify (row.city ++ "-" ++ row.state)) seen }
          :: updateCityBatch
            (resolveUnique (slugify (row.city ++ "-" ++ row.state)) seen :: seen) rest) := by
  refine ⟨resolveUnique_of_not_mem, ?_, ?_, ?_⟩
  · intro base seen hmem
    rcases resolveUnique_spec base seen with ⟨n, heq, hnot, hleast⟩
    cases n with
    | zero => exact absurd hmem hnot
    | succ k =>
      refine ⟨k + 1, by omega, heq, hnot, ?_⟩
      intro m h1 hm
      have := hleast m hm
      cases m with
      | zero => omega
      | succ j => exact this
  · intro tax st r hsome
    rcases Option.isSome_iff_exists.mp hsome with ⟨p, hp⟩
    rw [ingestStep, hp]
  · intro seen row rest
    rw [updateCityBatch]

/-- Witness for the amended C8: the collision branch evaluated on a
concrete seen-set already holding the candidate and its first suffix. -/
theorem resolve_unique_contract_witness :
    ("a" : String) ∈ (["a", "a-1"] : List String) ∧
    (∃ n, 1 ≤ n ∧ resolveUnique "a" ["a", "a-1"] = suffixed "a" n ∧
      suffixed "a" n ∉ (["a", "a-1"] : List String) ∧
      ∀ m, 1 ≤ m → m < n → suffixed "a" m ∈ (["a", "a-1"] : List String)) :=
  ⟨by decide, resolve_unique_contract.2.1 "a" ["a", "a-1"] (by decide)⟩

/-- C7. A cities row exists for a (city, state) pair iff at least 10
ingested providers share that pair, and its provider_count is exactly
the number of such providers. -/
theorem city_threshold :
    (∀ (ps : List Provider) (c s : String),
      (∃ row ∈ buildCities ps, row.city = c ∧ row.state = s) ↔ 10 ≤ cityCount ps c s) ∧
    (∀ (ps : List Provider), ∀ row ∈ buildCities ps,
      row.providerCount = cityCount ps row.city row.state) := by
  have hmemiff : ∀ (ps : List Provider) (row : CityRow),
      row ∈ buildCities ps ↔
      ∃ k ∈ ((ps.map (fun p => (p.city, p.state))).dedup).filter
          (fun k => 10 ≤ cityCount ps k.1 k.2),
        row = { city := k.1, state := k.2, providerCount := cityCount ps k.1 k.2, slug := "" } := by
    intro ps row
    rw [buildCities]
    rw [(sortByDesc_perm _ _).mem_iff, List.mem_map]
    constructor
    · rintro ⟨k, hk, rfl⟩; exact ⟨k, hk, rfl⟩
    · rintro ⟨k, hk, rfl⟩; exact ⟨k, hk, rfl⟩
  constructor
  · intro ps c s
    constructor
    · rintro ⟨row, hrow, hc, hs⟩
      rcases (hmemiff ps row).mp hrow with ⟨k, hk, rfl⟩
      rcases List.mem_filter.mp hk with ⟨_, hcond⟩
      have : 10 ≤ cityCount ps k.1 k.2 := of_decide_eq_true hcond
      simp only at hc hs
      rw [hc, hs] at this
      exact this
    · intro hcount
      have hpos : 0 < ps.countP (fun p => p.city == c && p.state == s) := by
        rw [cityCount] at hcount; omega
      rcases List.countP_pos_iff.mp hpos with ⟨p, hp, hpred⟩
      simp only [Bool.and_eq_true, beq_iff_eq] at hpred
      have hpair : (c, s) ∈ (ps.map (fun p => (p.city, p.state))).dedup := by
        rw [List.mem_dedup, List.mem_map]
        exact ⟨p, hp, by rw [hpred.1, hpred.2]⟩
      have hfil : (c, s) ∈ ((ps.map (fun p => (p.city, p.state))).dedup).filter
          (fun k => 10 ≤ cityCount ps k.1 k.2) :=
        List.mem_filter.mpr ⟨hpair, decide_eq_true hcount⟩
      refine ⟨{ city := c, state := s, providerCount := cityCount ps c s, slug := "" },
        (hmemiff ps _).mpr ⟨(c, s), hfil, rfl⟩, rfl, rfl⟩
  · intro ps row hrow
    rcases (hmemiff ps row).mp hrow with ⟨k, _, rfl⟩
    rfl

/-- Witness for C7: with exactly 10 qualifying providers the row
appears and carries count 10. -/
theorem city_threshold_witness :
    ({ city := "Springfield", state := "IL", providerCount := 10, slug := "" } : CityRow)
      ∈ buildCities psDemo ∧
    ({ city := "Springfield", state := "IL", providerCount := 10, slug := "" } : CityRow).providerCount
      = cityCount psDemo "Springfield" "IL" :=
  ⟨by decide, city_threshold.2 psDemo
    { city := "Springfield", state := "IL", providerCount := 10, slug := "" } (by decide)⟩

theorem chunksOfAux_flatten {α : Type} (k : Nat) (hk : 1 ≤ k) :
    ∀ (fuel : Nat) (l : List α), l.length ≤ fuel →
    (chunksOfAux k fuel l).flatten = l := by
  intro fuel
  induction fuel with
  | zero =>
    intro l hl
    have : l = [] := List.eq_nil_of_length_eq_zero (by omega)
    subst this
    rfl
  | succ f ih =>
    intro l hl
    cases l with
    | nil => rfl
    | cons a t =>
      show ((a :: t).take k :: chunksOfAux k f ((a :: t).drop k)).flatten = a :: t
      rw [List.flatten_cons,
        ih ((a :: t).drop k) (by
          rw [List.length_drop]
          simp only [List.length_cons] at hl ⊢
          omega),
        List.take_append_drop]

theorem find?_keyed {α β : Type} [BEq β] [LawfulBEq β] (f : α → β) :
    ∀ (l : List α) (e : α), (l.map f).Nodup → e ∈ l →
      l.find? (fun x => f x == f e) = some e := by
  intro l
  induction l with
  | nil => intro e _ h; simp at h
  | cons a t ih =>
    intro e hnd hmem
    rw [List.map_cons, List.nodup_cons] at hnd
    rcases List.mem_cons.mp hmem with rfl | hmem
    · rw [List.find?_cons_of_pos _ (by simp)]
    · have hne : (f a == f e) = false := by
        rw [beq_eq_false_iff_ne]
        intro hcontra
        exact hnd.1 (hcontra ▸ List.mem_map_of_mem f hmem)
      rw [List.find?_cons_of_neg _ (by simp [hne]), ih e hnd.2 hmem]

theorem exportLargeAux_flatten (tbl : List (Nat × PRow)) (k' : Nat)
    (hpair : tbl.Pairwise (fun e f => e.1 < f.1))
    (hnodup : (tbl.map (fun e => e.2.npi)).Nodup) :
    ∀ (fuel : Nat) (done rest : List (Nat × PRow)) (lastRowid : Nat),
      tbl = done ++ rest →
      (∀ e ∈ done, e.1 ≤ lastRowid) →
      (∀ e ∈ rest, lastRowid < e.1) →
      rest.length < fuel →
      (exportLargeAux tbl (k' + 1) fuel lastRowid done.length).flatten
        = rest.map (fun e => e.2) := by
  intro fuel
  induction fuel with
  | zero => intro done rest lastRowid _ _ _ h; omega
  | succ f ih =>
    intro done rest lastRowid htbl hdone hrest hlen
    have hfilter : tbl.filter (fun e => lastRowid < e.1) = rest := by
      rw [htbl, List.filter_append,
        List.filter_eq_nil_iff.mpr (fun a ha => by
          simp only [decide_eq_true_eq]
          exact not_lt.mpr (hdone a ha)),
        List.filter_eq_self.mpr (fun a ha => decide_eq_true (hrest a ha))]
      rfl
    have hchunkq : selectChunk tbl lastRowid (k' + 1) = rest.take (k' + 1) := by
      rw [selectChunk, hfilter]
    cases rest with
    | nil =>
      have hlen2 : tbl.length = done.length := by rw [htbl]; simp
      show (if done.length < tbl.length then _ else []).flatten = _
      rw [if_neg (by omega)]
      rfl
    | cons r rest' =>
      have hcond : done.length < tbl.length := by
        rw [htbl, List.length_append]
        simp only [List.length_cons]
        omega
      have hchunk' : selectChunk tbl lastRowid (k' + 1) = r :: rest'.take k' := by
        rw [hchunkq, List.take_succ_cons]
      show (if done.length < tbl.length then
          match selectChunk tbl lastRowid (k' + 1) with
          | [] => []
          | c :: cs =>
            (c :: cs).map (fun e => e.2) ::
            exportLargeAux tbl (k' + 1) f (nextCursor tbl (c :: cs) (lastRowid + (k' + 1)))
              (done.length + (c :: cs).length)
        else []).flatten = _
      rw [if_pos hcond, hchunk']
      show ((r :: rest'.take k').map (fun e => e.2) ::
          exportLargeAux tbl (k' + 1) f
            (nextCursor tbl (r :: rest'.take k') (lastRowid + (k' + 1)))
            (done.length + (r :: rest'.take k').length)).flatten = _
      -- name the chunk and its last element
      have hchunk_take : r :: rest'.take k' = (r :: rest').take (k' + 1) :=
        List.take_succ_cons.symm
      have hchunk_sub : (r :: rest'.take k') ⊆ (r :: rest') := by
        rw [hchunk_take]
        exact (List.take_sublist _ _).subset
      have hchunk_ne : (r :: rest'.take k') ≠ [] := by simp
      have hrest_pair : (r :: rest').Pairwise (fun e f => e.1 < f.1) :=
        (List.pairwise_append.mp (htbl ▸ hpair)).2.1
      have hchunk_pair : (r :: rest'.take k').Pairwise (fun e f => e.1 < f.1) := by
        rw [hchunk_take]
        exact List.Pairwise.sublist (List.take_sublist _ _) hrest_pair
      have hsplit : (r :: rest'.take k') ++ rest'.drop k' = r :: rest' := by
        simp [List.take_append_drop]
      have hcross : ∀ a ∈ r :: rest'.take k', ∀ b ∈ rest'.drop k', a.1 < b.1 := by
        have := hsplit ▸ hrest_pair
        exact (List.pairwise_append.mp this).2.2
      set e := (r :: rest'.take k').getLast hchunk_ne with hedef
      have he : (r :: rest'.take k').getLast? = some e :=
        List.getLast?_eq_getLast_of_ne_nil hchunk_ne
      have hemem_chunk : e ∈ r :: rest'.take k' := List.getLast_mem hchunk_ne
      have hemem_rest : e ∈ r :: rest' := hchunk_sub hemem_chunk
      have hemem : e ∈ tbl := htbl ▸ List.mem_append_right done hemem_rest
      have hlookup : lookupRowidByNpi tbl e.2.npi = some e.1 := by
        rw [lookupRowidByNpi, find?_keyed (fun x => x.2.npi) tbl e hnodup hemem]
        rfl
      have hcursor : nextCursor tbl (r :: rest'.take k') (lastRowid + (k' + 1)) = e.1 := by
        rw [nextCursor, he]
        show (lookupRowidByNpi tbl e.2.npi).getD (lastRowid + (k' + 1)) = e.1
        rw [hlookup]
        rfl
      have hchunk_le : ∀ x ∈ r :: rest'.take k', x.1 ≤ e.1 := by
        intro x hx
        have hdecomp : (r :: rest'.take k').dropLast ++ [e] = r :: rest'.take k' :=
          hedef ▸ List.dropLast_append_getLast hchunk_ne
        rw [← hdecomp] at hx
        rcases List.mem_append.mp hx with hx | hx
        · have := (List.pairwise_append.mp (hdecomp.symm ▸ hchunk_pair)).2.2 x hx e (by simp)
          omega
        · simp only [List.mem_singleton] at hx
          subst hx
          exact le_rfl
      have hdone' : ∀ x ∈ done ++ (r :: rest'.take k'), x.1 ≤ e.1 := by
        intro x hx
        rcases List.mem_append.mp hx with hx | hx
        · have h1 := hdone x hx
          have h2 := hrest e hemem_rest
          omega
        · exact hchunk_le x hx
      have hrest' : ∀ x ∈ rest'.drop k', e.1 < x.1 :=
        fun x hx => hcross e hemem_chunk x hx
      have htbl' : tbl = (done ++ (r :: rest'.take k')) ++ rest'.drop k' := by
        rw [htbl, List.append_assoc, hsplit]
      have hlen' : (rest'.drop k').length < f := by
        rw [List.length_drop]
        simp only [List.length_cons] at hlen
        omega
      have hih := ih (done ++ (r :: rest'.take k')) (rest'.drop k') e.1 htbl' hdone' hrest' hlen'
      rw [List.length_append] at hih
      rw [List.flatten_cons, hcursor, hih, ← List.map_append, hsplit]

/-- C2. Concatenating a table's chunk files in filename order and
replaying them into an empty store reproduces the source rows: for a
small table the chunks flatten to exactly the ordered row set (hence a
permutation of the source table), and for the large table the
rowid-cursor pagination — each chunk selecting rows with rowid
strictly greater than the previous chunk's last row's rowid — emits
every row exactly once, in order. -/
theorem export_roundtrip :
    (∀ (α : Type) (src rows : List α), rows.Perm src →
      ((exportSmallChunks rows).flatten).Perm src) ∧
    (∀ tbl : List (Nat × PRow),
      tbl.Pairwise (fun e f => e.1 < f.1) →
      (∀ e ∈ tbl, 0 < e.1) →
      (tbl.map (fun e => e.2.npi)).Nodup →
      (exportLargeChunks tbl).flatten = tbl.map (fun e => e.2)) := by
  constructor
  · intro α src rows hperm
    rw [exportSmallChunks, chunksOf, chunksOfAux_flatten 1000 (by omega) _ rows le_rfl]
    exact hperm
  · intro tbl hpair hpos hnodup
    rw [exportLargeChunks]
    have h2000 : (2000 : Nat) = 1999 + 1 := rfl
    rw [h2000]
    exact exportLargeAux_flatten tbl 1999 hpair hnodup (tbl.length + 1) [] tbl 0 rfl
      (by simp) hpos (by omega)

/-- Witness for C2: both halves instantiated on concrete tables. -/
theorem export_roundtrip_witness :
    (([3, 1, 2] : List Nat).Perm [1, 2, 3] ∧
      ((exportSmallChunks ([3, 1, 2] : List Nat)).flatten).Perm [1, 2, 3]) ∧
    ((tblDemo.Pairwise (fun e f => e.1 < f.1) ∧ (∀ e ∈ tblDemo, 0 < e.1) ∧
        (tblDemo.map (fun e => e.2.npi)).Nodup) ∧
      (exportLargeChunks tblDemo).flatten = tblDemo.map (fun e => e.2)) :=
  ⟨⟨by decide, export_roundtrip.1 Nat [1, 2, 3] [3, 1, 2] (by decide)⟩,
   ⟨⟨by decide, by decide, by decide⟩,
    export_roundtrip.2 tblDemo (by decide) (by decide) (by decide)⟩⟩

theorem isGroupMaxB_iff (tbl : List SpecRow) (r : SpecRow) :
    isGroupMaxB tbl r = true ↔
    ∀ q ∈ tbl, q.slug = r.slug → q.code ≠ r.code → q.providerCount < r.providerCount := by
  rw [isGroupMaxB, List.all_eq_true]
  constructor
  · intro h q hq; exact of_decide_eq_true (h q hq)
  · intro h q hq; exact decide_eq_true (h q hq)

theorem rows_eq_of_code (tbl : List SpecRow) (hcodes : (tbl.map (fun r => r.code)).Nodup) :
    ∀ a ∈ tbl, ∀ b ∈ tbl, a.code = b.code → a = b := by
  intro a ha b hb hab
  exact List.inj_on_of_nodup_map hcodes ha hb hab

theorem filter_of_map {α β : Type} (f : α → β) (p : β → Bool) :
    ∀ (l : List α), (l.map f).filter p = (l.filter (fun x => p (f x))).map f := by
  intro l
  induction l with
  | nil => rfl
  | cons a t ih =>
    simp only [List.map_cons, List.filter_cons]
    by_cases h : p (f a)
    · simp [h, ih]
    · simp [h, ih]

theorem foldl_update_eq_map (s : String) :
    ∀ (cs : List SpecRow) (t : List SpecRow),
      cs.foldl (fun t sp => t.map (fun r =>
        if r.code = sp.code then { r with slug := s ++ "-" ++ low6 sp.code } else r)) t
      = t.map (fun r =>
        if r.code ∈ cs.map (fun sp => sp.code)
        then { r with slug := s ++ "-" ++ low6 r.code } else r) := by
  intro cs
  induction cs with
  | nil =>
    intro t
    simp
  | cons sp cs ih =>
    intro t
    rw [List.foldl_cons, ih, List.map_map]
    refine congrArg (fun f => List.map f t) (funext fun r => ?_)
    by_cases h1 : r.code = sp.code
    · by_cases h2 : r.code ∈ cs.map (fun sp => sp.code)
      · simp [Function.comp, h1, h2]
      · simp [Function.comp, h1, h2]
    · by_cases h2 : r.code ∈ cs.map (fun sp => sp.code)
      · simp [Function.comp, h1, h2]
      · simp [Function.comp, h1, h2]

theorem dupSlug_mem_slugs (tbl : List SpecRow) (s : String) (hs : s ∈ dupSlugsOf tbl) :
    s ∈ tbl.map (fun r => r.slug) :=
  List.mem_dedup.mp (List.mem_filter.mp hs).1

theorem group_structure (tbl : List SpecRow)
    (hcodes : (tbl.map (fun r => r.code)).Nodup)
    (hcounts : ∀ r₁ ∈ tbl, ∀ r₂ ∈ tbl, r₁.slug = r₂.slug → r₁.code ≠ r₂.code →
      r₁.providerCount ≠ r₂.providerCount)
    (s : String) (hs : s ∈ dupSlugsOf tbl) :
    ∃ h tail,
      sortByDesc (fun r => r.providerCount) (tbl.filter (fun r => r.slug = s)) = h :: tail ∧
      h ∈ tbl ∧ h.slug = s ∧ h ∉ tail ∧
      isGroupMaxB tbl h = true ∧
      (∀ r ∈ tail, r ∈ tbl ∧ r.slug = s) ∧
      (∀ r ∈ tbl, r.slug = s →
        (isGroupMaxB tbl r = true → r = h) ∧ (isGroupMaxB tbl r = false → r ∈ tail)) := by
  have hgmem : ∀ r : SpecRow, r ∈ tbl.filter (fun r => r.slug = s) ↔ r ∈ tbl ∧ r.slug = s := by
    intro r
    rw [List.mem_filter]
    exact ⟨fun ⟨h1, h2⟩ => ⟨h1, of_decide_eq_true h2⟩, fun ⟨h1, h2⟩ => ⟨h1, decide_eq_true h2⟩⟩
  have hperm := sortByDesc_perm (fun r : SpecRow => r.providerCount) (tbl.filter (fun r => r.slug = s))
  have hsort := sortByDesc_sorted (fun r : SpecRow => r.providerCount) (tbl.filter (fun r => r.slug = s))
  have hsmem : ∀ r : SpecRow,
      r ∈ sortByDesc (fun r => r.providerCount) (tbl.filter (fun r => r.slug = s)) ↔
      r ∈ tbl ∧ r.slug = s := by
    intro r
    rw [hperm.mem_iff]
    exact hgmem r
  have hne : sortByDesc (fun r : SpecRow => r.providerCount) (tbl.filter (fun r => r.slug = s)) ≠ [] := by
    rcases List.mem_map.mp (dupSlug_mem_slugs tbl s hs) with ⟨r, hr, hrs⟩
    intro hcontra
    have := (hsmem r).mpr ⟨hr, hrs⟩
    rw [hcontra] at this
    simp at this
  have hnd : (sortByDesc (fun r : SpecRow => r.providerCount) (tbl.filter (fun r => r.slug = s))).Nodup :=
    hperm.nodup_iff.mpr ((List.Nodup.of_map _ hcodes).filter _)
  rcases hspecs : sortByDesc (fun r : SpecRow => r.providerCount) (tbl.filter (fun r => r.slug = s))
    with _ | ⟨h, tail⟩
  · exact absurd hspecs hne
  · rw [hspecs] at hsmem hsort hnd
    have hhmem : h ∈ tbl ∧ h.slug = s := (hsmem h).mp (by simp)
    have htailmem : ∀ r ∈ tail, r ∈ tbl ∧ r.slug = s :=
      fun r hr => (hsmem r).mp (by simp [hr])
    have hhtail : h ∉ tail := (List.nodup_cons.mp hnd).1
    have hhcount : ∀ r ∈ tail, r.providerCount ≤ h.providerCount :=
      fun r hr => (List.pairwise_cons.mp hsort).1 r hr
    have hmaxh : isGroupMaxB tbl h = true := by
      rw [isGroupMaxB_iff]
      intro q hq hqslug hqcode
      have hqs : q.slug = s := hqslug.trans hhmem.2
      have : q ∈ h :: tail := (hsmem q).mpr ⟨hq, hqs⟩
      rcases List.mem_cons.mp this with rfl | hqtail
      · exact absurd rfl hqcode
      · have hle := hhcount q hqtail
        have hne' := hcounts q hq h hhmem.1 hqslug hqcode
        omega
    refine ⟨h, tail, rfl, hhmem.1, hhmem.2, hhtail, hmaxh, htailmem, ?_⟩
    intro r hr hrs
    constructor
    · intro hmaxr
      have : r ∈ h :: tail := (hsmem r).mpr ⟨hr, hrs⟩
      rcases List.mem_cons.mp this with rfl | hrtail
      · rfl
      · by_cases hcode : r.code = h.code
        · exact rows_eq_of_code tbl hcodes r hr h hhmem.1 hcode
        · have h1 := (isGroupMaxB_iff tbl r).mp hmaxr h hhmem.1
            (hhmem.2.trans hrs.symm) (fun e => hcode e.symm)
          have h2 := hhcount r hrtail
          omega
    · intro hmaxr
      have : r ∈ h :: tail := (hsmem r).mpr ⟨hr, hrs⟩
      rcases List.mem_cons.mp this with rfl | hrtail
      · rw [hmaxh] at hmaxr
        exact absurd hmaxr (by simp)
      · exact hrtail

theorem dedupStep_transform (tbl : List SpecRow)
    (hcodes : (tbl.map (fun r => r.code)).Nodup)
    (hcounts : ∀ r₁ ∈ tbl, ∀ r₂ ∈ tbl, r₁.slug = r₂.slug → r₁.code ≠ r₂.code →
      r₁.providerCount ≠ r₂.providerCount)
    (hfresh : ∀ s ∈ dupSlugsOf tbl, ∀ r ∈ tbl,
      (s ++ "-" ++ low6 r.code) ∉ tbl.map (fun q => q.slug))
    (D : List String) (s : String)
    (hD : D ⊆ dupSlugsOf tbl) (hs : s ∈ dupSlugsOf tbl) (hsD : s ∉ D) :
    dedupStep (tbl.map (specTransform tbl D)) s = tbl.map (specTransform tbl (D ++ [s])) := by
  have htrans_slug_eq : ∀ r ∈ tbl, ((specTransform tbl D r).slug = s ↔ r.slug = s) := by
    intro r hr
    rw [specTransform]
    split
    case isTrue hcond =>
      show r.slug ++ "-" ++ low6 r.code = s ↔ r.slug = s
      constructor
      · intro he
        exact absurd (he ▸ dupSlug_mem_slugs tbl s hs) (hfresh r.slug (hD hcond.1) r hr)
      · intro he
        exact absurd (he ▸ hcond.1) hsD
    case isFalse => exact Iff.rfl
  have hfilter : (tbl.map (specTransform tbl D)).filter (fun r => r.slug = s)
      = tbl.filter (fun r => r.slug = s) := by
    rw [filter_of_map]
    have h1 : tbl.filter (fun x => decide ((specTransform tbl D x).slug = s))
        = tbl.filter (fun x => decide (x.slug = s)) :=
      List.filter_congr (fun x hx => decide_eq_decide.mpr (htrans_slug_eq x hx))
    rw [h1]
    have h2 : ∀ x ∈ tbl.filter (fun x => decide (x.slug = s)),
        specTransform tbl D x = x := by
      intro x hx
      have hxs : x.slug = s := of_decide_eq_true (List.mem_filter.mp hx).2
      rw [specTransform, if_neg]
      intro hcond
      exact hsD (hxs ▸ hcond.1)
    rw [List.map_congr_left h2]
    exact List.map_id' _
  obtain ⟨h, tail, hspecs, hhtbl, hhslug, hhtail, hmaxh, htailmem, hclass⟩ :=
    group_structure tbl hcodes hcounts s hs
  rw [dedupStep, hfilter, hspecs,
    show (h :: tail).drop 1 = tail from rfl,
    foldl_update_eq_map s tail (tbl.map (specTransform tbl D)), List.map_map]
  refine List.map_congr_left ?_
  intro r hr
  have hcode_tail_iff : r.code ∈ tail.map (fun sp => sp.code) ↔ r ∈ tail := by
    constructor
    · intro hmem
      rcases List.mem_map.mp hmem with ⟨q, hq, hqc⟩
      have := rows_eq_of_code tbl hcodes q (htailmem q hq).1 r hr hqc
      exact this ▸ hq
    · intro hmem
      exact List.mem_map_of_mem _ hmem
  by_cases hrs : r.slug = s
  · have hfr : specTransform tbl D r = r := by
      rw [specTransform, if_neg]
      intro hcond
      exact hsD (hrs ▸ hcond.1)
    simp only [Function.comp_apply, hfr]
    by_cases hB : isGroupMaxB tbl r = true
    · have hrh : r = h := ((hclass r hr hrs).1) hB
      have hcode_not : r.code ∉ tail.map (fun sp => sp.code) := by
        rw [hcode_tail_iff]
        intro hcontra
        exact hhtail (hrh ▸ hcontra)
      rw [if_neg hcode_not, specTransform, if_neg]
      intro hcond
      rw [hB] at hcond
      simp at hcond
    · have hBf : isGroupMaxB tbl r = false := by
        cases hBB : isGroupMaxB tbl r with
        | true => exact absurd hBB hB
        | false => rfl
      have hrtail : r ∈ tail := (hclass r hr hrs).2 hBf
      rw [if_pos (hcode_tail_iff.mpr hrtail), specTransform, if_pos]
      · rw [hrs]
      · exact ⟨List.mem_append_right D (hrs ▸ List.mem_singleton_self s), hBf⟩
  · have hcode_not : r.code ∉ tail.map (fun sp => sp.code) := by
      rw [hcode_tail_iff]
      intro hcontra
      exact hrs (htailmem r hcontra).2
    simp only [Function.comp_apply]
    by_cases hcond : r.slug ∈ D ∧ isGroupMaxB tbl r = false
    · have hfr : specTransform tbl D r = { r with slug := r.slug ++ "-" ++ low6 r.code } := by
        rw [specTransform, if_pos hcond]
      rw [hfr,
        show ({ r with slug := r.slug ++ "-" ++ low6 r.code } : SpecRow).code = r.code from rfl,
        if_neg hcode_not, specTransform, if_pos ⟨List.mem_append_left [s] hcond.1, hcond.2⟩]
    · have hfr : specTransform tbl D r = r := by rw [specTransform, if_neg hcond]
      rw [hfr, if_neg hcode_not, specTransform, if_neg]
      intro hcond2
      rcases List.mem_append.mp hcond2.1 with hmem | hmem
      · exact hcond ⟨hmem, hcond2.2⟩
      · exact hrs (List.mem_singleton.mp hmem)

theorem dupSlugsOf_nodup (tbl : List SpecRow) : (dupSlugsOf tbl).Nodup :=
  (List.nodup_dedup _).filter _

theorem specSlugDedup_eq_map (tbl : List SpecRow)
    (hcodes : (tbl.map (fun r => r.code)).Nodup)
    (hcounts : ∀ r₁ ∈ tbl, ∀ r₂ ∈ tbl, r₁.slug = r₂.slug → r₁.code ≠ r₂.code →
      r₁.providerCount ≠ r₂.providerCount)
    (hfresh : ∀ s ∈ dupSlugsOf tbl, ∀ r ∈ tbl,
      (s ++ "-" ++ low6 r.code) ∉ tbl.map (fun q => q.slug)) :
    specSlugDedup tbl = tbl.map (specTransform tbl (dupSlugsOf tbl)) := by
  have hgen : ∀ (Dsuf Dpre : List String), dupSlugsOf tbl = Dpre ++ Dsuf →
      Dsuf.foldl dedupStep (tbl.map (specTransform tbl Dpre))
        = tbl.map (specTransform tbl (dupSlugsOf tbl)) := by
    intro Dsuf
    induction Dsuf with
    | nil =>
      intro Dpre heq
      rw [List.foldl_nil, heq, List.append_nil]
    | cons s rest ih =>
      intro Dpre heq
      have hnd := dupSlugsOf_nodup tbl
      rw [heq] at hnd
      have hsD : s ∉ Dpre := by
        rcases List.nodup_append.mp hnd with ⟨_, _, hdisj⟩
        intro hcontra
        exact hdisj hcontra (by simp)
      have hD : Dpre ⊆ dupSlugsOf tbl := by
        rw [heq]
        exact List.subset_append_left _ _
      have hs : s ∈ dupSlugsOf tbl := by
        rw [heq]
        exact List.mem_append_right _ (by simp)
      rw [List.foldl_cons,
        dedupStep_transform tbl hcodes hcounts hfresh Dpre s hD hs hsD,
        ih (Dpre ++ [s]) (by rw [heq, List.append_assoc]; rfl)]
  have h0 : tbl.map (specTransform tbl []) = tbl := by
    rw [List.map_congr_left (fun r _ => by rw [specTransform, if_neg (by simp)])]
    exact List.map_id' _
  rw [specSlugDedup]
  nth_rewrite 1 [← h0]
  exact hgen (dupSlugsOf tbl) [] (by simp)

/-- C3. After the dedup pass, within every group of Specialty rows
that initially shared a slug, the row with the strictly highest
provider_count keeps its slug unchanged and every other row's slug
becomes the shared slug extended with `-` and the lowercased first six
characters of its own code (a 6-character suffix whenever the code has
at least 6 characters, and always a value distinct from the unsuffixed
slug).  Hypotheses: codes are unique (the table's primary key),
provider counts are distinct within each colliding group (so "highest"
is well defined), and no suffixed slug collides with an existing slug
(so the sequential per-group updates do not interfere). -/
theorem specialty_slug_dedup (tbl : List SpecRow)
    (hcodes : (tbl.map (fun r => r.code)).Nodup)
    (hcounts : ∀ r₁ ∈ tbl, ∀ r₂ ∈ tbl, r₁.slug = r₂.slug → r₁.code ≠ r₂.code →
      r₁.providerCount ≠ r₂.providerCount)
    (hfresh : ∀ s ∈ dupSlugsOf tbl, ∀ r ∈ tbl,
      (s ++ "-" ++ low6 r.code) ∉ tbl.map (fun q => q.slug)) :
    ∀ r ∈ tbl, 1 < slugCount tbl r.slug →
      ((∀ q ∈ tbl, q.slug = r.slug → q.code ≠ r.code → q.providerCount < r.providerCount) →
        r ∈ specSlugDedup tbl) ∧
      (¬ (∀ q ∈ tbl, q.slug = r.slug → q.code ≠ r.code → q.providerCount < r.providerCount) →
        { r with slug := r.slug ++ "-" ++ low6 r.code } ∈ specSlugDedup tbl) ∧
      r.slug ++ "-" ++ low6 r.code ≠ r.slug ∧
      (6 ≤ r.code.length → (low6 r.code).length = 6) := by
  intro r hr hdupcount
  have hrdup : r.slug ∈ dupSlugsOf tbl := by
    rw [dupSlugsOf, List.mem_filter]
    exact ⟨List.mem_dedup.mpr (List.mem_map_of_mem _ hr), decide_eq_true hdupcount⟩
  rw [specSlugDedup_eq_map tbl hcodes hcounts hfresh]
  refine ⟨?_, ?_, ?_, ?_⟩
  · intro hmax
    have hB : isGroupMaxB tbl r = true := (isGroupMaxB_iff tbl r).mpr hmax
    have : specTransform tbl (dupSlugsOf tbl) r = r := by
      rw [specTransform, if_neg]
      intro hcond
      rw [hB] at hcond
      simp at hcond
    exact this ▸ List.mem_map_of_mem _ hr
  · intro hmax
    have hB : isGroupMaxB tbl r = false := by
      cases hBB : isGroupMaxB tbl r with
      | true => exact absurd ((isGroupMaxB_iff tbl r).mp hBB) hmax
      | false => rfl
    have : specTransform tbl (dupSlugsOf tbl) r
        = { r with slug := r.slug ++ "-" ++ low6 r.code } := by
      rw [specTransform, if_pos ⟨hrdup, hB⟩]
    exact this ▸ List.mem_map_of_mem _ hr
  · intro hcontra
    have hlen := congrArg String.length hcontra
    rw [String.length_append, String.length_append] at hlen
    have h1 : ("-" : String).length = 1 := rfl
    omega
  · intro hlen
    have : r.code.length = r.code.data.length := rfl
    rw [this] at hlen
    show ((r.code.data.take 6).map Char.toLower).length = 6
    rw [List.length_map, List.length_take]
    omega

/-- Witness for C3: in the two-row collision the lower-count row ends
up with the code-derived suffix. -/
theorem specialty_slug_dedup_witness :
    ({ code := "208D00000X", name := "B", category := none, slug := "cardiology",
        providerCount := 3 } : SpecRow) ∈ specsDemo ∧
    ({ code := "208D00000X", name := "B", category := none,
        slug := "cardiology" ++ "-" ++ low6 "208D00000X", providerCount := 3 } : SpecRow)
      ∈ specSlugDedup specsDemo :=
  ⟨by decide,
    ((specialty_slug_dedup specsDemo (by decide) (by decide) (by decide)
      { code := "208D00000X", name := "B", category := none, slug := "cardiology",
        providerCount := 3 } (by decide) (by decide)).2.1 (by decide))⟩

/-- Witness for C1: the invariant evaluated on the demo run. -/
theorem providers_npi_slug_pairwise_distinct_witness :
    ((runIngest taxDemo [recDemo1, recDemo2, recDemo3]).providers.map (fun p => p.npi)).Nodup ∧
    ((runIngest taxDemo [recDemo1, recDemo2, recDemo3]).providers.map (fun p => p.slug)).Nodup :=
  providers_npi_slug_pairwise_distinct taxDemo [recDemo1, recDemo2, recDemo3]

/-- Witness for C9: the escaper evaluated on a value containing an
embedded quote (built from characters to keep the literal readable). -/
theorem escapeSQL_contract_witness :
    escapeSQL none = "NULL" ∧
    escapeSQL (some ⟨['a', squote, 'b']⟩) ≠ "NULL" ∧
    sqlUnquote (escapeSQL (some ⟨['a', squote, 'b']⟩)) = some ⟨['a', squote, 'b']⟩ :=
  ⟨escapeSQL_contract.1, (escapeSQL_contract.2 ⟨['a', squote, 'b']⟩).1,
    (escapeSQL_contract.2 ⟨['a', squote, 'b']⟩).2⟩

/-- Witness for C10: idempotence evaluated on a concrete messy input. -/
theorem slugify_wellformed_idempotent_witness :
    slugify (slugify "Hello,  World!") = slugify "Hello,  World!" :=
  (slugify_wellformed_idempotent "Hello,  World!").2.2.2.2

/-- Witness for the C8 counterexample side conditions, restated as a
closed evaluation: the resolver picks the numeric successor. -/
theorem resolve_unique_not_lex_first_detail :
    resolveUnique "a" ["a", "a-1"] = "a-2" := by decide
